import Mathlib

/-!
Shallow embedding of the position-representation core of the hobbes chess
engine (src/board.rs and src/fen.rs), together with proofs about it.

Conventions of the embedding:
* A square is a field of Fin 64 (rank = sq / 8, file = sq % 8, a1 = 0, h8 = 63).
* A bitboard (Rust u64) is a Nat kept below 2^64; all operations used
  (xor, and, or, shifts by < 64, testBit) stay inside that range.
* Rust code that can fault at runtime (unwrap of an empty mailbox entry,
  u8 subtraction below zero producing an out-of-range square index, the
  unreachable arm of rook_sqs, malformed FEN input) is embedded as an
  Option-returning function, with none for the faulting executions.
* The half-move and full-move counters (u8 in Rust) are embedded as
  unbounded naturals; no claim below depends on their 8-bit wraparound.
* The fields named from/to of a move descriptor are renamed src/dst,
  since from is a reserved word in Lean.
* The Zobrist key table is process-wide immutable data generated outside
  src/ (zobrist.rs); following the design notes of the spec it is passed
  in as a read-only structure of keys, so every statement is proved for
  every possible key table.
* The attack tables and the check detector (attacks.rs, movegen.rs) are
  external collaborators not under src/; they are passed to the
  pseudo-legality checker as a record of oracles, and a concrete
  spec-modelled instance implementing the standard chess attack sets is
  provided for statements that need their actual values.
-/

/-- Piece types, in the storage order of the bitboard array (0-5). -/
inductive Piece where
  | pawn | knight | bishop | rook | queen | king
deriving DecidableEq, Fintype

/-- Sides (colours). -/
inductive Side where
  | white | black
deriving DecidableEq, Fintype

/-- Index of a piece type into the 8-entry bitboard array. -/
def Piece.idx : Piece → Fin 8
  | .pawn => 0
  | .knight => 1
  | .bishop => 2
  | .rook => 3
  | .queen => 4
  | .king => 5

/-- Modelled from the spec: piece.rs is not under src/.  Major pieces are
rooks and queens (the majors-only hash channel). -/
def Piece.is_major : Piece → Bool
  | .rook => true
  | .queen => true
  | _ => false

/-- Modelled from the spec: piece.rs is not under src/.  Minor pieces are
knights and bishops (the minors-only hash channel). -/
def Piece.is_minor : Piece → Bool
  | .knight => true
  | .bishop => true
  | _ => false

/-- Side.flip. -/
def Side.flip : Side → Side
  | .white => .black
  | .black => .white

/-- Index of a side occupancy set into the 8-entry bitboard array (6-7). -/
def Side.idx : Side → Fin 8
  | .white => 6
  | .black => 7

/-- Modelled from the spec: the move descriptor (moves.rs is not under
src/) carries a move-kind flag -- quiet, capture, double pawn push,
en passant, the two castles -- and an optional promotion piece type. -/
inductive MoveFlag where
  | quiet
  | capture
  | doublePush
  | enPassant
  | castleK
  | castleQ
  | promo (pc : Piece)
deriving DecidableEq

/-- Modelled from the spec: a move descriptor with origin, destination and
flag (moves.rs is not under src/).  The Rust fields from/to are renamed
src/dst because from is reserved in Lean. -/
structure Move where
  src : Fin 64
  dst : Fin 64
  flag : MoveFlag
deriving DecidableEq

/-- Move::promo_piece. -/
def Move.promo_piece : Move → Option Piece
  | ⟨_, _, .promo pc⟩ => some pc
  | _ => none

/-- Move::is_promo. -/
def Move.is_promo (m : Move) : Bool := m.promo_piece.isSome

/-- Move::is_castle. -/
def Move.is_castle (m : Move) : Bool := m.flag = .castleK ∨ m.flag = .castleQ

/-- Move::is_ep. -/
def Move.is_ep (m : Move) : Bool := m.flag = .enPassant

/-- Move::is_double_push. -/
def Move.is_double_push (m : Move) : Bool := m.flag = .doublePush

/-- Modelled from the spec: a descriptor that encodes no real move (the
all-zero encoding) fails Move::exists. -/
def Move.exists' (m : Move) : Bool :=
  ¬(m.src = 0 ∧ m.dst = 0 ∧ m.flag = .quiet)

/-- Modelled from the spec: the global pseudo-random Zobrist key table
(zobrist.rs is not under src/) -- one key per (piece, side, square), one
for the side to move, one per castling-rights mask value, one per
en-passant square.  It is immutable data; all results below hold for an
arbitrary table. -/
structure Zobrist where
  sq : Piece → Side → Fin 64 → Nat
  stm : Nat
  castle : Nat → Nat
  ep : Fin 64 → Nat

/-- Bitboard::of_sq: the singleton bitboard. -/
def ofSq (sq : Fin 64) : Nat := 1 <<< sq.val

/-- The position state record (struct Board). -/
structure Board where
  bb : Fin 8 → Nat
  pcs : Fin 64 → Option Piece
  stm : Side
  hm : Nat
  fm : Nat
  ep_sq : Option (Fin 64)
  castle : Nat
  hash : Nat
  pawn_hash : Nat
  non_pawn_hashes : Side → Nat
  major_hash : Nat
  minor_hash : Nat

/-- Board::empty. -/
def Board.empty : Board where
  bb := fun _ => 0
  pcs := fun _ => none
  stm := .white
  hm := 0
  fm := 0
  ep_sq := none
  castle := 0
  hash := 0
  pawn_hash := 0
  non_pawn_hashes := fun _ => 0
  major_hash := 0
  minor_hash := 0

/-- Board::toggle_sq: flips the piece bit and side-occupancy bit of the
square, flips the mailbox entry, and XORs the (piece, side, square) key
into the full hash and into the sub-hash channels the piece belongs to. -/
def Board.toggle_sq (Z : Zobrist) (b : Board) (sq : Fin 64) (pc : Piece) (side : Side) : Board :=
  let bbSq := ofSq sq
  let key := Z.sq pc side sq
  { b with
    bb := fun i =>
      if i = pc.idx then (b.bb i) ^^^ bbSq
      else if i = side.idx then (b.bb i) ^^^ bbSq
      else b.bb i
    pcs := fun i => if i = sq then (if b.pcs sq = some pc then none else some pc) else b.pcs i
    hash := b.hash ^^^ key
    pawn_hash := if pc = .pawn then b.pawn_hash ^^^ key else b.pawn_hash
    non_pawn_hashes := fun s =>
      if pc = .pawn then b.non_pawn_hashes s
      else if s = side then b.non_pawn_hashes s ^^^ key else b.non_pawn_hashes s
    major_hash := if pc ≠ .pawn ∧ pc.is_major then b.major_hash ^^^ key else b.major_hash
    minor_hash := if pc ≠ .pawn ∧ pc.is_minor then b.minor_hash ^^^ key else b.minor_hash }

/-- Board::toggle_sqs: relocates one piece by toggling origin and
destination. -/
def Board.toggle_sqs (Z : Zobrist) (b : Board) (src dst : Fin 64) (piece : Piece) (side : Side) : Board :=
  (b.toggle_sq Z src piece side).toggle_sq Z dst piece side

/-- Board::rook_sqs: the fixed rook origin/destination pair for each of
the four legal king castle destinations; the unreachable arm is embedded
as none. -/
def rook_sqs (king_to_sq : Fin 64) : Option (Fin 64 × Fin 64) :=
  if king_to_sq.val = 2 then some (0, 3)
  else if king_to_sq.val = 6 then some (7, 5)
  else if king_to_sq.val = 58 then some (56, 59)
  else if king_to_sq.val = 62 then some (63, 61)
  else none

/-- Board::ep_capture_sq: the square of the pawn captured en passant, one
rank behind (white) or ahead (black) of the destination.  The u8
arithmetic faults when the result leaves the board, embedded as none. -/
def Board.ep_capture_sq (b : Board) (dst : Fin 64) : Option (Fin 64) :=
  if b.stm = .white then
    if h : 8 ≤ dst.val then some ⟨dst.val - 8, by omega⟩ else none
  else
    if h : dst.val + 8 < 64 then some ⟨dst.val + 8, h⟩ else none

/-- The Rights enumeration. -/
def Rights.WKS : Nat := 1
/-- Rights::WQS. -/
def Rights.WQS : Nat := 2
/-- Rights::BKS. -/
def Rights.BKS : Nat := 4
/-- Rights::BQS. -/
def Rights.BQS : Nat := 8
/-- Rights::White (both white bits). -/
def Rights.whiteMask : Nat := 3
/-- Rights::Black (both black bits). -/
def Rights.blackMask : Nat := 12

/-- Board::calc_castle_rights: clears rights on king moves and on moves
touching a rook home square, XORs the old and new rights keys into the
hash, and returns the updated board (the Rust function returns the new
mask and mutates the hash; both effects are combined here). -/
def Board.calc_castle_rights (Z : Zobrist) (src dst : Fin 64) (pc : Piece) (b : Board) : Board :=
  if b.castle = 0 then b
  else
    let r0 := b.castle
    let r1 := if pc = .king then
        (if b.stm = .white then r0 &&& Rights.blackMask else r0 &&& Rights.whiteMask)
      else r0
    let r2 := if src.val = 7 ∨ dst.val = 7 then r1 &&& (15 - Rights.WKS) else r1
    let r3 := if src.val = 63 ∨ dst.val = 63 then r2 &&& (15 - Rights.BKS) else r2
    let r4 := if src.val = 0 ∨ dst.val = 0 then r3 &&& (15 - Rights.WQS) else r3
    let r5 := if src.val = 56 ∨ dst.val = 56 then r4 &&& (15 - Rights.BQS) else r4
    { b with castle := r5, hash := b.hash ^^^ Z.castle b.castle ^^^ Z.castle r5 }

/-- Board::calc_ep: XORs out the key of any previous en-passant target,
sets a new target only on a double push (the square behind the
destination), and XORs in its key.  Combined with the assignment of the
returned value to ep_sq in make. -/
def Board.calc_ep (Z : Zobrist) (flag : MoveFlag) (dst : Fin 64) (b : Board) : Option Board :=
  let h0 := match b.ep_sq with
    | some e => b.hash ^^^ Z.ep e
    | none => b.hash
  if flag = .doublePush then
    match b.ep_capture_sq dst with
    | none => none
    | some e => some { b with ep_sq := some e, hash := h0 ^^^ Z.ep e }
  else
    some { b with ep_sq := none, hash := h0 }

/-- Board::has_kingside_rights. -/
def Board.has_kingside_rights (b : Board) (side : Side) : Bool :=
  if side = .white then b.castle &&& Rights.WKS ≠ 0 else b.castle &&& Rights.BKS ≠ 0

/-- Board::has_queenside_rights. -/
def Board.has_queenside_rights (b : Board) (side : Side) : Bool :=
  if side = .white then b.castle &&& Rights.WQS ≠ 0 else b.castle &&& Rights.BQS ≠ 0

/-- Board::piece_at. -/
def Board.piece_at (b : Board) (sq : Fin 64) : Option Piece := b.pcs sq

/-- Board::us: occupancy of the side to move. -/
def Board.us (b : Board) : Nat := b.bb b.stm.idx

/-- Board::them: occupancy of the opponent. -/
def Board.them (b : Board) : Nat := b.bb b.stm.flip.idx

/-- Board::occ: full occupancy. -/
def Board.occ (b : Board) : Nat := b.bb Side.white.idx ||| b.bb Side.black.idx

/-- Board::white. -/
def Board.whiteBB (b : Board) : Nat := b.bb Side.white.idx

/-- Board::black. -/
def Board.blackBB (b : Board) : Nat := b.bb Side.black.idx

/-- Board::side_at: which side occupies a square, checking white first. -/
def Board.side_at (b : Board) (sq : Fin 64) : Option Side :=
  if (b.bb Side.white.idx).testBit sq.val then some .white
  else if (b.bb Side.black.idx).testBit sq.val then some .black
  else none

/-- Board::captured: the piece a move would capture. -/
def Board.captured (b : Board) (m : Move) : Option Piece :=
  if m.is_castle then none
  else if m.is_ep then some .pawn
  else b.piece_at m.dst

/-- Board::make: applies a move.  Faulting executions (empty origin
square, out-of-range en-passant arithmetic, a castle flag with a
destination that is no castle square) are embedded as none. -/
def Board.make (Z : Zobrist) (m : Move) (b : Board) : Option Board :=
  match b.pcs m.src with
  | none => none
  | some pc =>
    let side := b.stm
    let newPc := match m.promo_piece with
      | some promo => promo
      | none => pc
    let captured : Option Piece :=
      if m.flag = .enPassant then some .pawn else b.pcs m.dst
    let b1 := b.toggle_sq Z m.src pc side
    let b2? : Option Board :=
      match captured with
      | none => some b1
      | some cap =>
        match (if m.flag = .enPassant then b1.ep_capture_sq m.dst else some m.dst) with
        | none => none
        | some capture_sq => some (b1.toggle_sq Z capture_sq cap side.flip)
    match b2? with
    | none => none
    | some b2 =>
      let b3 := b2.toggle_sq Z m.dst newPc side
      let b4? : Option Board :=
        if m.is_castle then
          match rook_sqs m.dst with
          | none => none
          | some (rf, rt) => some (b3.toggle_sqs Z rf rt .rook side)
        else some b3
      match b4? with
      | none => none
      | some b4 =>
        match b4.calc_ep Z m.flag m.dst with
        | none => none
        | some b5 =>
          let b6 := b5.calc_castle_rights Z m.src m.dst pc
          some { b6 with
                 fm := if side = .black then b6.fm + 1 else b6.fm,
                 hm := if captured.isSome ∨ pc = .pawn then 0 else b6.hm + 1,
                 hash := b6.hash ^^^ Z.stm,
                 stm := side.flip }

/-- Board::make_null_move: passes the turn, resetting the half-move
clock, flipping the side to move with its key, and clearing any
en-passant target with its key. -/
def Board.make_null_move (Z : Zobrist) (b : Board) : Board :=
  match b.ep_sq with
  | some e => { b with hm := 0, stm := b.stm.flip, hash := b.hash ^^^ Z.stm ^^^ Z.ep e, ep_sq := none }
  | none => { b with hm := 0, stm := b.stm.flip, hash := b.hash ^^^ Z.stm }

/-- Fuel-bounded population count; any fuel above the number itself is
enough. -/
def popCountAux : Nat → Nat → Nat
  | 0, _ => 0
  | fuel + 1, n => if n = 0 then 0 else n % 2 + popCountAux fuel (n / 2)

/-- Population count of a natural number (Bitboard::count). -/
def popCount (n : Nat) : Nat := popCountAux (n + 1) n

/-- Board::is_insufficient_material, with the operator precedence of the
Rust source: the two-bishop test groups as
(no knights AND bishops nonempty AND two white bishops) OR (two black
bishops). -/
def Board.is_insufficient_material (b : Board) : Bool :=
  let pawns := b.bb Piece.pawn.idx
  let knights := b.bb Piece.knight.idx
  let bishops := b.bb Piece.bishop.idx
  let rooks := b.bb Piece.rook.idx
  let queens := b.bb Piece.queen.idx
  if (pawns ||| rooks ||| queens) ≠ 0 then false
  else
    let minor_pieces := knights ||| bishops
    let piece_count := popCount minor_pieces
    if piece_count ≤ 1 then true
    else if (knights = 0 ∧ bishops ≠ 0 ∧ popCount (bishops &&& b.whiteBB) = 2)
            ∨ popCount (bishops &&& b.blackBB) = 2 then false
    else piece_count ≤ 3

/-- CastleSafety::WQS: squares that must not be attacked when castling. -/
def CastleSafety.WQS : Nat := 0x000000000000001C
/-- CastleSafety::WKS. -/
def CastleSafety.WKS : Nat := 0x0000000000000070
/-- CastleSafety::BQS. -/
def CastleSafety.BQS : Nat := 0x1C00000000000000
/-- CastleSafety::BKS. -/
def CastleSafety.BKS : Nat := 0x7000000000000000

/-- CastleTravel::WKS: squares that must be unoccupied when castling. -/
def CastleTravel.WKS : Nat := 0x0000000000000060
/-- CastleTravel::WQS. -/
def CastleTravel.WQS : Nat := 0x000000000000000E
/-- CastleTravel::BKS. -/
def CastleTravel.BKS : Nat := 0x6000000000000000
/-- CastleTravel::BQS. -/
def CastleTravel.BQS : Nat := 0x0E00000000000000

/-- Rank::to_bb for rank index r (0-7). -/
def rankBB (r : Nat) : Nat := 0xFF <<< (8 * r)

/-- One king-step from a square by a (rank, file) delta; none when the
step leaves the board. -/
def step (sq : Fin 64) (dr df : Int) : Option (Fin 64) :=
  let r : Int := (sq.val / 8 : Nat) + dr
  let f : Int := (sq.val % 8 : Nat) + df
  if h : 0 ≤ r ∧ r < 8 ∧ 0 ≤ f ∧ f < 8 then
    some ⟨(r * 8 + f).toNat, by omega⟩
  else none

/-- Union of single steps from a square. -/
def leaps (sq : Fin 64) (ds : List (Int × Int)) : Nat :=
  ds.foldl (fun acc d => match step sq d.1 d.2 with
    | some t => acc ||| ofSq t
    | none => acc) 0

/-- Modelled from the spec: attacks.rs is not under src/.  King attack
set: the adjacent squares. -/
def kingAttacks (sq : Fin 64) : Nat :=
  leaps sq [(-1, -1), (-1, 0), (-1, 1), (0, -1), (0, 1), (1, -1), (1, 0), (1, 1)]

/-- Modelled from the spec: knight attack set. -/
def knightAttacks (sq : Fin 64) : Nat :=
  leaps sq [(-2, -1), (-2, 1), (-1, -2), (-1, 2), (1, -2), (1, 2), (2, -1), (2, 1)]

/-- Modelled from the spec: pawn attack set (the two forward diagonals). -/
def pawnAttacks (side : Side) (sq : Fin 64) : Nat :=
  leaps sq (if side = .white then [(1, -1), (1, 1)] else [(-1, -1), (-1, 1)])

/-- A sliding ray from a square, stopping at (and including) the first
occupied square; fuel bounds the at most seven steps. -/
def ray (occ : Nat) : Nat → Fin 64 → Int × Int → Nat
  | 0, _, _ => 0
  | fuel + 1, cur, d =>
    match step cur d.1 d.2 with
    | none => 0
    | some nxt => ofSq nxt ||| (if occ.testBit nxt.val then 0 else ray occ fuel nxt d)

/-- Union of sliding rays. -/
def rays (occ : Nat) (sq : Fin 64) (ds : List (Int × Int)) : Nat :=
  ds.foldl (fun acc d => acc ||| ray occ 7 sq d) 0

/-- Modelled from the spec: bishop attack set against an occupancy. -/
def bishopAttacks (occ : Nat) (sq : Fin 64) : Nat :=
  rays occ sq [(-1, -1), (-1, 1), (1, -1), (1, 1)]

/-- Modelled from the spec: rook attack set against an occupancy. -/
def rookAttacks (occ : Nat) (sq : Fin 64) : Nat :=
  rays occ sq [(-1, 0), (1, 0), (0, -1), (0, 1)]

/-- Modelled from the spec: the attack-table collaborator -- the attack
set of a piece on a square, for a side, against a full occupancy. -/
def stdAttacks (sq : Fin 64) (pc : Piece) (side : Side) (occ : Nat) : Nat :=
  match pc with
  | .pawn => pawnAttacks side sq
  | .knight => knightAttacks sq
  | .bishop => bishopAttacks occ sq
  | .rook => rookAttacks occ sq
  | .queen => bishopAttacks occ sq ||| rookAttacks occ sq
  | .king => kingAttacks sq

/-- The two external collaborators consumed by the pseudo-legality
checker: attacks::attacks and movegen::is_attacked. -/
structure Oracles where
  attacks : Fin 64 → Piece → Side → Nat → Nat
  is_attacked : Nat → Side → Nat → Board → Bool

/-- Modelled from the spec: movegen::is_attacked is not under src/ --
whether any piece of the opponent of the given side attacks any square of
the given square set, against the given occupancy. -/
def isAttackedStd (squares : Nat) (side : Side) (occ : Nat) (b : Board) : Bool :=
  (List.finRange 64).any fun sq =>
    match b.pcs sq with
    | some pc =>
      decide (b.side_at sq = some side.flip ∧ stdAttacks sq pc side.flip occ &&& squares ≠ 0)
    | none => false

/-- The spec-modelled instantiation of both collaborators. -/
def stdOracle : Oracles where
  attacks := fun sq pc side occ => stdAttacks sq pc side occ
  is_attacked := isAttackedStd

/-- The castle block of Board::is_pseudo_legal: true iff none of its
rejection conditions fires.  In the source the block never accepts by
itself -- control always continues to the code shared with non-castle
moves -- so it is faithfully a pure condition. -/
def Board.castle_checks (O : Oracles) (b : Board) (m : Move) (pc : Piece) (occ : Nat) : Bool :=
  if pc ≠ .king then false
  else
    let rank_bb := if b.stm = .white then rankBB 0 else rankBB 7
    if ¬ rank_bb.testBit m.src.val ∨ ¬ rank_bb.testBit m.dst.val then false
    else
      let kingside_sq : Fin 64 := if b.stm = .white then 6 else 62
      let queenside_sq : Fin 64 := if b.stm = .white then 2 else 58
      if m.dst ≠ kingside_sq ∧ m.dst ≠ queenside_sq then false
      else if m.dst = kingside_sq ∧ ¬ b.has_kingside_rights b.stm then false
      else if m.dst = queenside_sq ∧ ¬ b.has_queenside_rights b.stm then false
      else
        let travel_sqs :=
          if m.dst = kingside_sq then
            if b.stm = .white then CastleTravel.WKS else CastleTravel.BKS
          else
            if b.stm = .white then CastleTravel.WQS else CastleTravel.BQS
        if occ &&& travel_sqs ≠ 0 then false
        else
          let safety_sqs :=
            if m.dst = kingside_sq then
              if b.stm = .white then CastleSafety.WKS else CastleSafety.BKS
            else
              if b.stm = .white then CastleSafety.WQS else CastleSafety.BQS
          if O.is_attacked safety_sqs b.stm occ b then false
          else true

/-- The pawn branch of Board::is_pseudo_legal.  Faulting executions (the
usize file underflow for a diagonal move from file a to a non-adjacent
file, an en-passant capture square off the board) are embedded as none. -/
def Board.pl_pawn (b : Board) (m : Move) (them occ : Nat) (captured : Option Piece) : Option Bool :=
  let rest : Option Bool :=
    let from_rank := m.src.val / 8
    let to_rank := m.dst.val / 8
    if (b.stm = .white ∧ to_rank < from_rank) ∨ (b.stm = .black ∧ to_rank > from_rank) then
      some false
    else
      let promo_rank_bb := if b.stm = .white then rankBB 7 else rankBB 0
      if m.is_promo ∧ ¬ promo_rank_bb.testBit m.dst.val then some false
      else
        let from_file := m.src.val % 8
        let to_file := m.dst.val % 8
        if from_file ≠ to_file then
          if to_file = from_file + 1 then some (captured.isSome || m.is_ep)
          else if from_file = 0 then none
          else if to_file ≠ from_file - 1 then some false
          else some (captured.isSome || m.is_ep)
        else
          if captured.isSome then some false
          else if m.is_double_push then
            let start_rank_bb := if b.stm = .white then rankBB 1 else rankBB 6
            if ¬ start_rank_bb.testBit m.src.val then some false
            else
              let between_sq := if b.stm = .white then m.src.val + 8 else m.src.val - 8
              if occ.testBit between_sq then some false
              else some (! occ.testBit m.dst.val)
          else
            if m.dst.val ≠ (if b.stm = .white then m.src.val + 8 else m.src.val - 8) then
              some false
            else some (! occ.testBit m.dst.val)
  if m.is_ep then
    if b.ep_sq = none then some false
    else
      match b.ep_capture_sq m.dst with
      | none => none
      | some ep_capture_sq =>
        if ¬ them.testBit ep_capture_sq.val then some false else rest
  else rest

/-- The non-pawn tail of Board::is_pseudo_legal: pawn-specific flags are
invalid, and the destination must lie in the attack set supplied by the
external collaborator. -/
def Board.pl_other (O : Oracles) (b : Board) (m : Move) (pc : Piece) (occ : Nat) : Option Bool :=
  if m.is_ep || m.is_promo || m.is_double_push then some false
  else some ((O.attacks m.src pc b.stm occ).testBit m.dst.val)

/-- Board::is_pseudo_legal.  The early returns of the Rust source are
flattened into nested conditionals, and the castle block, pawn branch and
non-pawn branch are the helper functions above; since the castle block
only ever rejects, it is folded in as the castle_checks condition. -/
def Board.is_pseudo_legal (O : Oracles) (b : Board) (m : Move) : Option Bool :=
  if ¬ m.exists' then some false
  else if m.src = m.dst then some false
  else
    match b.pcs m.src with
    | none => some false
    | some pc =>
      let us := b.us
      let them := b.them
      let occ := us ||| them
      let captured := b.captured m
      if ¬ us.testBit m.src.val then some false
      else if us.testBit m.dst.val then some false
      else if captured = some Piece.king then some false
      else if m.is_castle ∧ ¬ b.castle_checks O m pc occ then some false
      else if pc = .pawn then b.pl_pawn m them occ captured
      else b.pl_other O m pc occ

instance : Std.Commutative Nat.xor := ⟨Nat.xor_comm⟩

instance : Std.Associative Nat.xor := ⟨Nat.xor_assoc⟩

/-- The key a square contributes to a hash channel selected by the filter
φ: the (piece, side, square) key when the square is occupied and the
piece/side pair belongs to the channel, otherwise 0. -/
def chanKey (Z : Zobrist) (φ : Piece → Side → Prop) [∀ pc s, Decidable (φ pc s)]
    (b : Board) (sq : Fin 64) : Nat :=
  match b.pcs sq, b.side_at sq with
  | some pc, some s => if φ pc s then Z.sq pc s sq else 0
  | _, _ => 0

/-- From-scratch XOR of the per-square keys of a hash channel. -/
def chanXor (Z : Zobrist) (φ : Piece → Side → Prop) [∀ pc s, Decidable (φ pc s)]
    (b : Board) : Nat :=
  Finset.univ.fold Nat.xor 0 (fun sq : Fin 64 => chanKey Z φ b sq)

/-- Modelled from the spec: Zobrist::get_hash (zobrist.rs is not under
src/) -- the from-scratch full-position hash: the XOR of every occupied
(piece, side, square) key, with the side-to-move, castling-rights and
en-passant keys XORed in. -/
def Zobrist.get_hash (Z : Zobrist) (b : Board) : Nat :=
  chanXor Z (fun _ _ => True) b
    ^^^ (if b.stm = .black then Z.stm else 0)
    ^^^ Z.castle b.castle
    ^^^ (match b.ep_sq with | some e => Z.ep e | none => 0)

/-- Modelled from the spec: Zobrist::get_pawn_hash -- the pawns-only
channel, recomputed from scratch. -/
def Zobrist.get_pawn_hash (Z : Zobrist) (b : Board) : Nat :=
  chanXor Z (fun pc _ => pc = .pawn) b

/-- Modelled from the spec: Zobrist::get_non_pawn_hashes -- the per-side
non-pawn channels, recomputed from scratch. -/
def Zobrist.get_non_pawn_hashes (Z : Zobrist) (b : Board) : Side → Nat :=
  fun s => chanXor Z (fun pc s2 => pc ≠ .pawn ∧ s2 = s) b

/-- Modelled from the spec: Zobrist::get_major_hash -- the majors-only
channel, recomputed from scratch. -/
def Zobrist.get_major_hash (Z : Zobrist) (b : Board) : Nat :=
  chanXor Z (fun pc _ => pc.is_major = true) b

/-- Modelled from the spec: Zobrist::get_minor_hash -- the minors-only
channel, recomputed from scratch. -/
def Zobrist.get_minor_hash (Z : Zobrist) (b : Board) : Nat :=
  chanXor Z (fun pc _ => pc.is_minor = true) b

/-- Accumulator loop of the whitespace split: acc holds the characters of
the current word in reverse. -/
def splitWsAux : List Char → List Char → List (List Char)
  | [], acc => if acc = [] then [] else [acc.reverse]
  | c :: cs, acc =>
    if c.isWhitespace then
      if acc = [] then splitWsAux cs [] else acc.reverse :: splitWsAux cs []
    else splitWsAux cs (c :: acc)

/-- A whitespace-run split of a character list, dropping empty pieces
(str::split_whitespace). -/
def splitWs (l : List Char) : List (List Char) := splitWsAux l []

/-- A split on the slash character, keeping empty pieces
(str::split with a char pattern). -/
def splitSlash : List Char → List (List Char)
  | [] => [[]]
  | c :: cs =>
    if c = '/' then [] :: splitSlash cs
    else
      match splitSlash cs with
      | w :: ws => (c :: w) :: ws
      | [] => [[c]]

/-- Fuel-bounded digit emission; the fuel only serves structural
recursion and any fuel above the number itself is enough. -/
def natToDigitsAux : Nat → Nat → List Char
  | 0, _ => []
  | fuel + 1, n =>
    if n < 10 then [Char.ofNat ('0'.toNat + n)]
    else natToDigitsAux fuel (n / 10) ++ [Char.ofNat ('0'.toNat + n % 10)]

/-- Decimal digit characters of a natural number (u8::to_string). -/
def natToDigits (n : Nat) : List Char := natToDigitsAux (n + 1) n

/-- The canonical start position description (fen::STARTPOS). -/
def STARTPOS : String := "rnbqkbnr/pppppppp/8/8/8/8/PPPPPPPP/RNBQKBNR w KQkq - 0 1"

/-- The piece-placement characters of the position-description format and
the piece/side each denotes (the 12-letter match arm of from_fen combined
with parse_piece and the uppercase test). -/
def fenPieceOfChar (c : Char) : Option (Piece × Side) :=
  match c with
  | 'P' => some (.pawn, .white)
  | 'N' => some (.knight, .white)
  | 'B' => some (.bishop, .white)
  | 'R' => some (.rook, .white)
  | 'Q' => some (.queen, .white)
  | 'K' => some (.king, .white)
  | 'p' => some (.pawn, .black)
  | 'n' => some (.knight, .black)
  | 'b' => some (.bishop, .black)
  | 'r' => some (.rook, .black)
  | 'q' => some (.queen, .black)
  | 'k' => some (.king, .black)
  | _ => none

/-- Decoding one row of the placement field onto board rank rank: digits
1-8 skip files, piece letters toggle the piece onto the square, anything
else (including running past file h) faults. -/
def processRow (Z : Zobrist) (rank : Fin 8) : List Char → Nat → Board → Option Board
  | [], _, b => some b
  | c :: cs, file, b =>
    if '1' ≤ c ∧ c ≤ '8' then
      processRow Z rank cs (file + (c.toNat - '0'.toNat)) b
    else
      match fenPieceOfChar c with
      | some (pc, side) =>
        if h : file < 8 then
          processRow Z rank cs (file + 1)
            (b.toggle_sq Z ⟨rank.val * 8 + file, by omega⟩ pc side)
        else none
      | none => none

/-- Decoding the rows of the placement field in order; row i holds board
rank 7 - i. -/
def processRows (Z : Zobrist) : List (List Char) → Nat → Board → Option Board
  | [], _, b => some b
  | row :: rest, i, b =>
    match processRow Z ⟨7 - i % 8, by omega⟩ row 0 b with
    | some b2 => processRows Z rest (i + 1) b2
    | none => none

/-- parse_stm. -/
def parse_stm : List Char → Option Side
  | ['w'] => some .white
  | ['b'] => some .black
  | _ => none

/-- parse_castle_rights, folding the rights letters into the mask. -/
def parse_castle_rights : List Char → Nat → Option Nat
  | [], acc => some acc
  | c :: cs, acc =>
    match c with
    | 'K' => parse_castle_rights cs (acc ||| 1)
    | 'Q' => parse_castle_rights cs (acc ||| 2)
    | 'k' => parse_castle_rights cs (acc ||| 4)
    | 'q' => parse_castle_rights cs (acc ||| 8)
    | '-' => parse_castle_rights cs acc
    | _ => none

/-- parse_square: file letter then rank digit (extra characters are
ignored, as in the Rust source); the usize subtractions and File/Rank
parsing fault outside a-h / 1-8. -/
def parse_square (l : List Char) : Option (Fin 64) :=
  match l with
  | c0 :: c1 :: _ =>
    if 'a'.toNat ≤ c0.toNat ∧ '1'.toNat ≤ c1.toNat then
      let file := c0.toNat - 'a'.toNat
      let rank := c1.toNat - '1'.toNat
      if h : file < 8 ∧ rank < 8 then some ⟨rank * 8 + file, by omega⟩ else none
    else none
  | _ => none

/-- parse_ep_sq: a dash is no target; the outer none is a parse fault. -/
def parse_ep_sq (l : List Char) : Option (Option (Fin 64)) :=
  if l = ['-'] then some none else (parse_square l).map some

/-- Decimal digits of a clock field; none when empty or non-numeric. -/
def digitsVal : List Char → Nat → Option Nat
  | [], acc => some acc
  | c :: cs, acc =>
    if '0' ≤ c ∧ c ≤ '9' then digitsVal cs (acc * 10 + (c.toNat - '0'.toNat)) else none

/-- Value of a decimal digit string, none when empty or non-numeric. -/
def digitsToNat : List Char → Option Nat
  | [] => none
  | l => digitsVal l 0

/-- A clock field: str::parse into u8 with unwrap_or(0) -- parse failure
(including overflowing the 8-bit range) yields 0. -/
def parseClock (l : List Char) : Nat :=
  match digitsToNat l with
  | some n => if n < 256 then n else 0
  | none => 0

/-- Board::from_fen.  Every panic of the Rust decoder (wrong row count,
bad character, missing field, bad square) is embedded as none. -/
def Board.from_fen (Z : Zobrist) (s : String) : Option Board :=
  let parts := splitWs s.toList
  match parts.get? 0 with
  | none => none
  | some boardPart =>
    let rows := splitSlash boardPart
    if rows.length = 8 then
      match processRows Z rows 0 Board.empty with
      | none => none
      | some b0 =>
        match parts.get? 1 with
        | none => none
        | some stmPart =>
          match parse_stm stmPart with
          | none => none
          | some stm =>
            match parts.get? 2 with
            | none => none
            | some castlePart =>
              match parse_castle_rights castlePart 0 with
              | none => none
              | some castle =>
                match parts.get? 3 with
                | none => none
                | some epPart =>
                  match parse_ep_sq epPart with
                  | none => none
                  | some ep =>
                    let hm := parseClock ((parts.get? 4).getD ['0'])
                    let fm := parseClock ((parts.get? 5).getD ['0'])
                    let b1 : Board :=
                      { b0 with stm := stm, castle := castle, ep_sq := ep, hm := hm, fm := fm }
                    some { b1 with
                           hash := Zobrist.get_hash Z b1,
                           pawn_hash := Zobrist.get_pawn_hash Z b1,
                           non_pawn_hashes := Zobrist.get_non_pawn_hashes Z b1,
                           major_hash := Zobrist.get_major_hash Z b1,
                           minor_hash := Zobrist.get_minor_hash Z b1 }
    else none

/-- piece_to_char. -/
def piece_to_char (piece : Piece) (side : Side) : Char :=
  let ch : Char := match piece with
    | .pawn => 'p'
    | .knight => 'n'
    | .bishop => 'b'
    | .rook => 'r'
    | .queen => 'q'
    | .king => 'k'
  if side = .white then ch.toUpper else ch

/-- The cell of a square as the encoder sees it: the mailbox piece paired
with the side from the occupancy sets; none embeds the expect fault of an
occupied mailbox entry with no side bit. -/
def Board.cellAt (b : Board) (sq : Fin 64) : Option (Option (Piece × Side)) :=
  match b.piece_at sq with
  | some pc =>
    match b.side_at sq with
    | some s => some (some (pc, s))
    | none => none
  | none => some none

/-- Run-length emission of one rank of cells, carrying the count of
pending empty squares. -/
def emitCells : List (Option (Piece × Side)) → Nat → List Char
  | [], k => if 0 < k then natToDigits k else []
  | none :: rest, k => emitCells rest (k + 1)
  | some (pc, s) :: rest, k =>
    (if 0 < k then natToDigits k else []) ++ piece_to_char pc s :: emitCells rest 0

/-- The cells of one board rank, a-file first. -/
def collectCells (b : Board) (r : Fin 8) : List (Fin 8) → Option (List (Option (Piece × Side)))
  | [] => some []
  | f :: fs =>
    match b.cellAt ⟨r.val * 8 + f.val, by omega⟩, collectCells b r fs with
    | some c, some cs => some (c :: cs)
    | _, _ => none

/-- The placement field: ranks encoded eight-to-one, separated by
slashes. -/
def emitRanks (b : Board) : List (Fin 8) → Option (List Char)
  | [] => some []
  | [r] => (collectCells b r (List.finRange 8)).map (fun cs => emitCells cs 0)
  | r :: rest =>
    match collectCells b r (List.finRange 8), emitRanks b rest with
    | some cs, some tl => some (emitCells cs 0 ++ '/' :: tl)
    | _, _ => none

/-- The castling-rights field, emitted in the fixed order K, Q, k, q with
a dash for the zero mask. -/
def emitCastle (c : Nat) : List Char :=
  (if c &&& 1 ≠ 0 then ['K'] else []) ++ (if c &&& 2 ≠ 0 then ['Q'] else [])
    ++ (if c &&& 4 ≠ 0 then ['k'] else []) ++ (if c &&& 8 ≠ 0 then ['q'] else [])
    ++ (if c = 0 then ['-'] else [])

/-- The en-passant field: file letter and rank digit, or a dash. -/
def emitEp : Option (Fin 64) → List Char
  | some e => [Char.ofNat ('a'.toNat + e.val % 8), Char.ofNat ('1'.toNat + e.val / 8)]
  | none => ['-']

/-- Board::to_fen; none embeds the expect fault on a board whose mailbox
and occupancy sets disagree. -/
def Board.to_fen (b : Board) : Option String :=
  match emitRanks b (List.finRange 8).reverse with
  | none => none
  | some boardChars =>
    some (String.mk (boardChars
      ++ ' ' :: (if b.stm = .white then ['w'] else ['b'])
      ++ ' ' :: emitCastle b.castle
      ++ ' ' :: emitEp b.ep_sq
      ++ ' ' :: natToDigits b.hm
      ++ ' ' :: natToDigits b.fm))

/-- A trivial concrete Zobrist table (all keys zero), used to instantiate
universally quantified statements at concrete positions. -/
def Z0 : Zobrist := ⟨fun _ _ _ => 0, 0, fun _ => 0, fun _ => 0⟩

/-- A concrete Zobrist table separating the black knight and black pawn
keys of square d5, used to exhibit a hash-channel divergence. -/
def Z1 : Zobrist :=
  ⟨fun pc s q => if pc = .knight ∧ s = .black ∧ q = 35 then 1
    else if pc = .pawn ∧ s = .black ∧ q = 35 then 2 else 0,
   0, fun _ => 0, fun _ => 0⟩

/-- Agreement of the redundant representations at one square: the piece
bitboards match the mailbox entry, the two side occupancy sets are
disjoint, and a side bit is set exactly on the occupied squares. -/
def WFsq (b : Board) (sq : Fin 64) : Prop :=
  (∀ pc : Piece, ((b.bb pc.idx).testBit sq.val ↔ b.pcs sq = some pc))
    ∧ ¬((b.bb Side.white.idx).testBit sq.val ∧ (b.bb Side.black.idx).testBit sq.val)
    ∧ (((b.bb Side.white.idx).testBit sq.val ∨ (b.bb Side.black.idx).testBit sq.val)
        ↔ (b.pcs sq).isSome)

/-- A well-formed board: every square is coherent and every bitboard fits
in 64 bits. -/
def WF (b : Board) : Prop :=
  (∀ sq : Fin 64, WFsq b sq) ∧ (∀ i : Fin 8, b.bb i < 2 ^ 64)

/-- All five incrementally maintained hash channels agree with their
from-scratch recomputation, and the board is well-formed. -/
def HashInv (Z : Zobrist) (b : Board) : Prop :=
  WF b
    ∧ b.hash = Zobrist.get_hash Z b
    ∧ b.pawn_hash = Zobrist.get_pawn_hash Z b
    ∧ (∀ s : Side, b.non_pawn_hashes s = Zobrist.get_non_pawn_hashes Z b s)
    ∧ b.major_hash = Zobrist.get_major_hash Z b
    ∧ b.minor_hash = Zobrist.get_minor_hash Z b

/-- The proviso of the amended hash-integrity claim: an en-passant
flagged move really captures an opponent pawn (the implied capture square
holds a pawn) and lands on an empty square. -/
def epOk (b : Board) (m : Move) : Prop :=
  m.flag = .enPassant →
    (∃ csq, b.ep_capture_sq m.dst = some csq ∧ b.pcs csq = some Piece.pawn)
      ∧ b.pcs m.dst = none

/-- A finite sequence of make and make_null_move calls from a board, each
move argument accepted by pseudo-legal validation (with the spec-modelled
attack collaborators) and each en-passant move subject to the epOk
proviso. -/
inductive SeqOk (Z : Zobrist) : Board → Board → Prop where
  | refl (b : Board) : SeqOk Z b b
  | step (b : Board) (m : Move) (b1 b2 : Board)
      (hpl : b.is_pseudo_legal stdOracle m = some true) (hep : epOk b m)
      (hmk : b.make Z m = some b1) (h : SeqOk Z b1 b2) : SeqOk Z b b2
  | null (b b2 : Board) (h : SeqOk Z (b.make_null_move Z) b2) : SeqOk Z b b2

/-- A finite sequence of make calls from a board, each move argument
accepted by pseudo-legal validation against arbitrary collaborators. -/
inductive Reachable (O : Oracles) (Z : Zobrist) : Board → Board → Prop where
  | refl (b : Board) : Reachable O Z b b
  | step (b : Board) (m : Move) (b1 b2 : Board)
      (hpl : b.is_pseudo_legal O m = some true)
      (hmk : b.make Z m = some b1) (h : Reachable O Z b1 b2) : Reachable O Z b b2

/-- A side has nothing but its king on the board. -/
def bareKing (b : Board) (s : Side) : Prop :=
  b.bb s.idx &&& b.bb Piece.king.idx = b.bb s.idx

/-- The insufficient-material characterization exactly as the claim
states it, for comparison against the code: no pawns, rooks or queens,
and either at most one minor in total, or at most three in total without
one side (symmetrically) holding two bishops against a bare opposing
king. -/
def insufficientSpecC3 (b : Board) : Prop :=
  (b.bb Piece.pawn.idx ||| b.bb Piece.rook.idx ||| b.bb Piece.queen.idx) = 0
    ∧ (popCount (b.bb Piece.knight.idx ||| b.bb Piece.bishop.idx) ≤ 1
       ∨ (popCount (b.bb Piece.knight.idx ||| b.bb Piece.bishop.idx) ≤ 3
          ∧ ¬ ((popCount (b.bb Piece.bishop.idx &&& b.whiteBB) = 2 ∧ bareKing b .black)
               ∨ (popCount (b.bb Piece.bishop.idx &&& b.blackBB) = 2 ∧ bareKing b .white))))

/-- Number of squares whose cell satisfies a predicate. -/
def cellCard (q : Fin 64 → Prop) [DecidablePred q] : Nat :=
  (Finset.univ.filter q).card

/-- The amended insufficient-material characterization, stated over the
mailbox and side sets: no pawn, rook or queen anywhere; and either at
most one minor piece in total, or at most three in total and neither
(knights absent, bishops present, and exactly two white bishops) nor
exactly two black bishops -- the asymmetric grouping the source's
operator precedence produces. -/
def insufficientAmendedC3 (b : Board) : Prop :=
  (∀ sq : Fin 64, b.pcs sq ≠ some .pawn ∧ b.pcs sq ≠ some .rook ∧ b.pcs sq ≠ some .queen)
    ∧ (cellCard (fun sq => b.pcs sq = some .knight ∨ b.pcs sq = some .bishop) ≤ 1
       ∨ (cellCard (fun sq => b.pcs sq = some .knight ∨ b.pcs sq = some .bishop) ≤ 3
          ∧ ¬ (((∀ sq : Fin 64, b.pcs sq ≠ some .knight)
                 ∧ (∃ sq : Fin 64, b.pcs sq = some .bishop)
                 ∧ cellCard (fun sq => b.pcs sq = some .bishop
                     ∧ (b.bb Side.white.idx).testBit sq.val) = 2)
               ∨ cellCard (fun sq => b.pcs sq = some .bishop
                    ∧ (b.bb Side.black.idx).testBit sq.val) = 2)))

instance (b : Board) (s : Side) : Decidable (bareKing b s) := by
  unfold bareKing; infer_instance

instance (b : Board) : Decidable (insufficientSpecC3 b) := by
  unfold insufficientSpecC3; infer_instance

instance (b : Board) : Decidable (insufficientAmendedC3 b) := by
  unfold insufficientAmendedC3 cellCard; infer_instance

instance (b : Board) (sq : Fin 64) : Decidable (WFsq b sq) := by
  unfold WFsq; infer_instance

instance (b : Board) : Decidable (WF b) := by
  unfold WF; infer_instance

instance (b : Board) (m : Move) : Decidable (epOk b m) := by
  unfold epOk; infer_instance

instance (Z : Zobrist) (b : Board) : Decidable (HashInv Z b) := by
  unfold HashInv; infer_instance

/-!
Theorems.  Each claim of the specification audit has one theorem below;
counterexamples are closed statements at explicit concrete inputs.
-/

/-- C10: pseudo-legality places no upper bound on the rank distance of
forward pawn moves.  A white pawn on a2 capturing a knight on b7 (five
ranks forward, adjacent file) is accepted, and a double-push-flagged move
a2-a5 (three ranks forward, same file, a3 and a5 empty) is accepted. -/
theorem pawn_rank_distance_unbounded :
    ((Board.from_fen Z0 "k7/1n6/8/8/8/8/P7/K7 w - - 0 1").map
       (fun b => (b.is_pseudo_legal stdOracle ⟨8, 49, .quiet⟩, b.pcs 8, b.pcs 49)))
      = some (some true, some .pawn, some .knight)
    ∧ (49 : Nat) / 8 - (8 : Nat) / 8 > 1
    ∧ ((Board.from_fen Z0 "k7/8/8/8/8/8/P7/K7 w - - 0 1").map
       (fun b => (b.is_pseudo_legal stdOracle ⟨8, 32, .doublePush⟩, b.pcs 16, b.pcs 32)))
      = some (some true, none, none)
    ∧ (32 : Nat) / 8 - (8 : Nat) / 8 > 2 ∧ (32 : Nat) % 8 = (8 : Nat) % 8 :=
  ⟨by decide, by decide, by decide, by decide, by decide⟩

/-- C5 counterexample: toggling a square twice with identical arguments
does not restore the mailbox when the square held a different piece: on a
board with a pawn on a1, double-toggling a knight on a1 leaves the
mailbox entry empty. -/
theorem toggle_sq_not_involutive_on_mismatched_mailbox :
    ¬ ((((Board.empty.toggle_sq Z0 0 .pawn .white).toggle_sq Z0 0 .knight .white).toggle_sq
          Z0 0 .knight .white).pcs 0
        = (Board.empty.toggle_sq Z0 0 .pawn .white).pcs 0) := by decide

/-- C3 counterexample: the position 8/1k6/2bb4/8/8/5N2/6K1/8 (two black
bishops against a white knight and king) is reported as sufficient
material by the code, yet the characterization stated by the claim calls
it insufficient, because the opposing side is not a bare king, so the
claimed two-bishop exception does not apply and three minors remain. -/
theorem insufficient_material_deviates_from_claim :
    ((Board.from_fen Z0 "8/1k6/2bb4/8/8/5N2/6K1/8 w - - 0 1").map
       (fun b => (b.is_insufficient_material, decide (insufficientSpecC3 b))))
      = some (false, true) := by decide

/-- C2: in position r3k2r/8/8/8/8/8/8/R3K2R w KQkq every condition the
claim lists for white castling e1-g1 holds -- the origin holds the white
king, the right is held, the travel squares are empty, and no safety
square is attacked -- yet is_pseudo_legal rejects the move: control falls
out of the castle block into the generic attack-set membership test, and
g1 is not in the king attack set of e1. -/
theorem castle_rejected_despite_spec_conditions :
    ((Board.from_fen Z0 "r3k2r/8/8/8/8/8/8/R3K2R w KQkq - 0 1").map (fun b =>
        (decide (b.pcs 4 = some Piece.king ∧ b.side_at 4 = some .white ∧ b.stm = .white)
          && b.has_kingside_rights .white
          && decide (b.occ &&& CastleTravel.WKS = 0)
          && ! isAttackedStd CastleSafety.WKS .white b.occ b,
         b.is_pseudo_legal stdOracle ⟨4, 6, .castleK⟩)))
      = some (true, some false) := by decide

/-- C9 counterexample: an en-passant flagged move is accepted although
the implied capture square holds a knight, not a pawn: white pawn e5,
black knight d5, en-passant target d6, move e5-d6 with the en-passant
flag. -/
theorem ep_accepted_with_non_pawn_on_capture_sq :
    ((Board.from_fen Z0 "k7/8/8/3nP3/8/8/8/K7 w - d6 0 1").map
       (fun b => (b.is_pseudo_legal stdOracle ⟨36, 43, .enPassant⟩, b.pcs 35, b.ep_sq)))
      = some (some true, some .knight, some 43) := by decide

/-- C4 counterexample: a quiet pawn push onto the far rank without a
promotion flag is accepted: white pawn e7, empty e8, move e7-e8 with the
quiet flag. -/
theorem far_rank_pawn_move_accepted_without_promo_flag :
    ((Board.from_fen Z0 "k7/4P3/8/8/8/8/8/K7 w - - 0 1").map
       (fun b => (b.is_pseudo_legal stdOracle ⟨52, 60, .quiet⟩, b.pcs 52)))
      = some (some true, some .pawn)
    ∧ (60 : Nat) / 8 = 7 ∧ (⟨52, 60, .quiet⟩ : Move).is_promo = false :=
  ⟨by decide, by decide, by decide⟩

/-- C1 counterexample: from the well-formed position description
k7/8/8/3nP3/8/8/8/K7 w - d6 (white pawn e5, black knight d5, en-passant
target d6), the en-passant flagged move e5-d6 is accepted by pseudo-legal
validation, yet after make the full hash no longer equals its
from-scratch recomputation: the incremental update removes a pawn key
from d5 while the board held a knight there. -/
theorem hash_channel_diverges_after_accepted_ep :
    ((Board.from_fen Z1 "k7/8/8/3nP3/8/8/8/K7 w - d6 0 1").map (fun b =>
        (b.is_pseudo_legal stdOracle ⟨36, 43, .enPassant⟩,
         (b.make Z1 ⟨36, 43, .enPassant⟩).map
           (fun b2 => decide (b2.hash = Zobrist.get_hash Z1 b2)))))
      = some (some true, some false) := by decide

theorem toggle_sq_stm (Z : Zobrist) (b : Board) (sq : Fin 64) (pc : Piece) (s : Side) :
    (b.toggle_sq Z sq pc s).stm = b.stm := rfl

theorem toggle_sq_ep_sq (Z : Zobrist) (b : Board) (sq : Fin 64) (pc : Piece) (s : Side) :
    (b.toggle_sq Z sq pc s).ep_sq = b.ep_sq := rfl

theorem toggle_sq_castle (Z : Zobrist) (b : Board) (sq : Fin 64) (pc : Piece) (s : Side) :
    (b.toggle_sq Z sq pc s).castle = b.castle := rfl

theorem ep_capture_sq_congr {a b : Board} (h : a.stm = b.stm) (dst : Fin 64) :
    a.ep_capture_sq dst = b.ep_capture_sq dst := by
  unfold Board.ep_capture_sq
  rw [h]

theorem calc_castle_rights_ep_sq (Z : Zobrist) (src dst : Fin 64) (pc : Piece) (b : Board) :
    (b.calc_castle_rights Z src dst pc).ep_sq = b.ep_sq := by
  unfold Board.calc_castle_rights
  split <;> rfl

theorem calc_ep_preserves {Z : Zobrist} {flag : MoveFlag} {dst : Fin 64} {b b5 : Board}
    (h : b.calc_ep Z flag dst = some b5) :
    b5.castle = b.castle ∧ b5.stm = b.stm ∧ b5.pcs = b.pcs ∧ b5.bb = b.bb
      ∧ b5.pawn_hash = b.pawn_hash ∧ b5.non_pawn_hashes = b.non_pawn_hashes
      ∧ b5.major_hash = b.major_hash ∧ b5.minor_hash = b.minor_hash := by
  unfold Board.calc_ep at h
  by_cases hdp : flag = .doublePush
  · simp only [hdp, if_true] at h
    cases hcap : b.ep_capture_sq dst with
    | none => rw [hcap] at h; cases h
    | some e =>
      rw [hcap] at h
      cases h
      exact ⟨rfl, rfl, rfl, rfl, rfl, rfl, rfl, rfl⟩
  · simp only [hdp, if_false] at h
    cases h
    exact ⟨rfl, rfl, rfl, rfl, rfl, rfl, rfl, rfl⟩

theorem calc_ep_sq {Z : Zobrist} {flag : MoveFlag} {dst : Fin 64} {b b5 : Board}
    (h : b.calc_ep Z flag dst = some b5) :
    (b5.ep_sq.isSome ↔ flag = .doublePush)
      ∧ (∀ e, b5.ep_sq = some e → b.ep_capture_sq dst = some e) := by
  unfold Board.calc_ep at h
  by_cases hdp : flag = .doublePush
  · simp only [hdp, if_true] at h
    cases hcap : b.ep_capture_sq dst with
    | none => rw [hcap] at h; cases h
    | some e =>
      rw [hcap] at h
      cases h
      refine ⟨by simp [hdp], ?_⟩
      intro e2 h2
      cases h2
      rfl
  · simp only [hdp, if_false] at h
    cases h
    refine ⟨by simp [hdp], ?_⟩
    intro e2 h2
    cases h2

theorem make_decomp {Z : Zobrist} {m : Move} {b b' : Board} (h : b.make Z m = some b') :
    ∃ (pc : Piece) (b4 b5 : Board),
      b.pcs m.src = some pc
      ∧ b4.stm = b.stm ∧ b4.ep_sq = b.ep_sq ∧ b4.castle = b.castle
      ∧ b4.calc_ep Z m.flag m.dst = some b5
      ∧ b'.ep_sq = b5.ep_sq
      ∧ b'.castle = (b5.calc_castle_rights Z m.src m.dst pc).castle := by
  cases hpc : b.pcs m.src with
  | none => simp [Board.make, hpc] at h
  | some pc =>
    simp only [Board.make, hpc] at h
    split at h
    · cases h
    · rename_i b2v hb2
      have h2 : b2v.stm = b.stm ∧ b2v.ep_sq = b.ep_sq ∧ b2v.castle = b.castle := by
        split at hb2
        · cases hb2; exact ⟨rfl, rfl, rfl⟩
        · split at hb2
          · cases hb2
          · cases hb2; exact ⟨rfl, rfl, rfl⟩
      split at h
      · cases h
      · rename_i b4v hb4
        have h4 : b4v.stm = b2v.stm ∧ b4v.ep_sq = b2v.ep_sq ∧ b4v.castle = b2v.castle := by
          split at hb4
          · split at hb4
            · cases hb4
            · cases hb4; exact ⟨rfl, rfl, rfl⟩
          · cases hb4; exact ⟨rfl, rfl, rfl⟩
        split at h
        · cases h
        · rename_i b5v hep
          cases h
          exact ⟨pc, b4v, b5v, rfl, h4.1.trans h2.1, h4.2.1.trans h2.2.1,
            h4.2.2.trans h2.2.2, hep, calc_castle_rights_ep_sq Z m.src m.dst pc b5v, rfl⟩

theorem and_subset_step {x y m : Nat} (h : y &&& x = y) : (y &&& m) &&& x = y &&& m := by
  apply Nat.eq_of_testBit_eq
  intro i
  have hb := congrArg (fun t => t.testBit i) h
  simp only [Nat.testBit_and] at hb ⊢
  cases hx : Nat.testBit x i <;> cases hy : Nat.testBit y i <;>
    cases hm : Nat.testBit m i <;> simp_all

theorem calc_castle_rights_subset (Z : Zobrist) (src dst : Fin 64) (pc : Piece) (b : Board) :
    (b.calc_castle_rights Z src dst pc).castle &&& b.castle
      = (b.calc_castle_rights Z src dst pc).castle := by
  unfold Board.calc_castle_rights
  split
  · exact Nat.and_self _
  · dsimp only
    split_ifs <;> (repeat' apply and_subset_step) <;> exact Nat.and_self _

/-- C5 amended: double toggling with identical arguments always restores
the bitboards and all five hash values; it restores the mailbox entry
provided the square was empty or held exactly the toggled piece type (on
a square holding a different piece the mailbox is not restored -- see the
counterexample). -/
theorem toggle_sq_double_restores (Z : Zobrist) (b : Board) (sq : Fin 64) (pc : Piece) (s : Side) :
    (∀ i, ((b.toggle_sq Z sq pc s).toggle_sq Z sq pc s).bb i = b.bb i)
    ∧ ((b.toggle_sq Z sq pc s).toggle_sq Z sq pc s).hash = b.hash
    ∧ ((b.toggle_sq Z sq pc s).toggle_sq Z sq pc s).pawn_hash = b.pawn_hash
    ∧ (∀ s2, ((b.toggle_sq Z sq pc s).toggle_sq Z sq pc s).non_pawn_hashes s2
        = b.non_pawn_hashes s2)
    ∧ ((b.toggle_sq Z sq pc s).toggle_sq Z sq pc s).major_hash = b.major_hash
    ∧ ((b.toggle_sq Z sq pc s).toggle_sq Z sq pc s).minor_hash = b.minor_hash
    ∧ ((b.pcs sq = none ∨ b.pcs sq = some pc) →
        ∀ i, ((b.toggle_sq Z sq pc s).toggle_sq Z sq pc s).pcs i = b.pcs i) := by
  refine ⟨?_, ?_, ?_, ?_, ?_, ?_, ?_⟩
  · intro i
    simp only [Board.toggle_sq]
    split_ifs <;> simp [Nat.xor_cancel_right]
  · simp [Board.toggle_sq, Nat.xor_cancel_right]
  · simp only [Board.toggle_sq]
    split_ifs <;> simp [Nat.xor_cancel_right]
  · intro s2
    simp only [Board.toggle_sq]
    split_ifs <;> simp [Nat.xor_cancel_right]
  · simp only [Board.toggle_sq]
    split_ifs <;> simp [Nat.xor_cancel_right]
  · simp only [Board.toggle_sq]
    split_ifs <;> simp [Nat.xor_cancel_right]
  · rintro (h | h) i <;>
      (simp only [Board.toggle_sq]
       by_cases hi : i = sq <;> simp [hi, h])

theorem toggle_sq_double_restores_witness :
    (Board.empty.pcs 0 = none ∨ Board.empty.pcs 0 = some .pawn)
    ∧ (∀ i, ((Board.empty.toggle_sq Z0 0 .pawn .white).toggle_sq Z0 0 .pawn .white).pcs i
        = Board.empty.pcs i) :=
  ⟨Or.inl rfl,
   (toggle_sq_double_restores Z0 Board.empty 0 .pawn .white).2.2.2.2.2.2 (Or.inl rfl)⟩

/-- C7: after a successful make the en-passant target is present if and
only if the move carried the double-push flag, and then it is the square
one rank behind the destination from the mover's perspective (the square
a double push skips over); after make_null_move the target is always
absent.  In particular a target present before either call is gone after
it. -/
theorem ep_target_iff_double_push :
    (∀ (Z : Zobrist) (b : Board) (m : Move) (b' : Board), b.make Z m = some b' →
        ((b'.ep_sq.isSome ↔ m.flag = .doublePush)
          ∧ (∀ e, b'.ep_sq = some e → b.ep_capture_sq m.dst = some e)))
    ∧ (∀ (Z : Zobrist) (b : Board), (b.make_null_move Z).ep_sq = none) := by
  constructor
  · intro Z b m b' h
    obtain ⟨pc, b4, b5, hpc, hstm, hep4, hcastle4, hcalc, hepeq, hcasteq⟩ := make_decomp h
    obtain ⟨hiff, hval⟩ := calc_ep_sq hcalc
    rw [hepeq]
    refine ⟨hiff, ?_⟩
    intro e he
    have hv := hval e he
    rwa [ep_capture_sq_congr hstm] at hv
  · intro Z b
    unfold Board.make_null_move
    split <;> simp_all

theorem ep_target_iff_double_push_witness :
    ∃ (b0 b' : Board), Board.from_fen Z0 STARTPOS = some b0
      ∧ b0.make Z0 ⟨12, 28, .doublePush⟩ = some b'
      ∧ (b'.ep_sq.isSome ↔ (⟨12, 28, .doublePush⟩ : Move).flag = .doublePush) := by
  refine ⟨(Board.from_fen Z0 STARTPOS).get (by decide),
    ((Board.from_fen Z0 STARTPOS).get (by decide) |>.make Z0 ⟨12, 28, .doublePush⟩).get (by decide),
    (Option.some_get _).symm, (Option.some_get _).symm, ?_⟩
  exact (ep_target_iff_double_push.1 Z0 _ _ _ (Option.some_get _).symm).1

/-- C6: for every board and move, if make succeeds on a pseudo-legally
accepted move the new castling-rights mask is a bitwise subset of the old
one; hence along any sequence of accepted applied moves every cleared
rights bit stays cleared. -/
theorem castle_rights_monotone :
    (∀ (O : Oracles) (Z : Zobrist) (b : Board) (m : Move) (b' : Board),
        b.is_pseudo_legal O m = some true → b.make Z m = some b' →
        b'.castle &&& b.castle = b'.castle)
    ∧ (∀ (O : Oracles) (Z : Zobrist) (b b' : Board), Reachable O Z b b' →
        ∀ i, b.castle.testBit i = false → b'.castle.testBit i = false) := by
  have single : ∀ (Z : Zobrist) (b : Board) (m : Move) (b' : Board),
      b.make Z m = some b' → b'.castle &&& b.castle = b'.castle := by
    intro Z b m b' h
    obtain ⟨pc, b4, b5, hpc, hstm, hep4, hcastle4, hcalc, hepeq, hcasteq⟩ := make_decomp h
    have h5 : b5.castle = b4.castle := (calc_ep_preserves hcalc).1
    rw [hcasteq, ← hcastle4, ← h5]
    exact calc_castle_rights_subset Z m.src m.dst pc b5
  constructor
  · intro O Z b m b' _ hmk
    exact single Z b m b' hmk
  · intro O Z b b' hr
    induction hr with
    | refl b => exact fun i h => h
    | step b m b1 b2 hpl hmk h ih =>
      intro i hi
      apply ih
      have hs := congrArg (fun t => t.testBit i) (single Z b m b1 hmk)
      simp only [Nat.testBit_and, hi, Bool.and_false] at hs
      exact hs.symm

theorem castle_rights_monotone_witness :
    ∃ (b0 b' : Board), Board.from_fen Z0 STARTPOS = some b0
      ∧ b0.is_pseudo_legal stdOracle ⟨6, 21, .quiet⟩ = some true
      ∧ b0.make Z0 ⟨6, 21, .quiet⟩ = some b'
      ∧ b'.castle &&& b0.castle = b'.castle := by
  refine ⟨(Board.from_fen Z0 STARTPOS).get (by decide),
    ((Board.from_fen Z0 STARTPOS).get (by decide) |>.make Z0 ⟨6, 21, .quiet⟩).get (by decide),
    (Option.some_get _).symm, by decide, (Option.some_get _).symm, ?_⟩
  exact castle_rights_monotone.1 stdOracle Z0 _ ⟨6, 21, .quiet⟩ _ (by decide)
    (Option.some_get _).symm

theorem exists_of_flag_ne_quiet {m : Move} (h : m.flag ≠ .quiet) : m.exists' = true := by
  unfold Move.exists'
  simp [h]

theorem pl_accept_cases {O : Oracles} {b : Board} {m : Move}
    (h : b.is_pseudo_legal O m = some true) :
    ∃ pc, b.pcs m.src = some pc
      ∧ m.exists' = true ∧ m.src ≠ m.dst
      ∧ b.us.testBit m.src.val = true ∧ b.us.testBit m.dst.val = false
      ∧ b.captured m ≠ some Piece.king
      ∧ (m.is_castle = true → b.castle_checks O m pc (b.us ||| b.them) = true)
      ∧ ((pc = .pawn ∧ b.pl_pawn m b.them (b.us ||| b.them) (b.captured m) = some true)
         ∨ (pc ≠ .pawn ∧ b.pl_other O m pc (b.us ||| b.them) = some true)) := by
  simp only [Board.is_pseudo_legal] at h
  split at h
  · exact absurd h (by simp)
  · rename_i hex
    split at h
    · exact absurd h (by simp)
    · rename_i hne
      split at h
      · exact absurd h (by simp)
      · rename_i pc hpc
        split at h
        · exact absurd h (by simp)
        · rename_i hus
          split at h
          · exact absurd h (by simp)
          · rename_i husd
            split at h
            · exact absurd h (by simp)
            · rename_i hck
              split at h
              · exact absurd h (by simp)
              · rename_i hcastle
                refine ⟨pc, hpc, by simpa using hex, hne, by simpa using hus,
                  by simpa using husd, hck, ?_, ?_⟩
                · intro hc
                  by_contra hcc
                  exact hcastle ⟨hc, by simpa using hcc⟩
                · split at h
                  · exact Or.inl ⟨by assumption, h⟩
                  · exact Or.inr ⟨by assumption, h⟩

theorem pl_pawn_promo {b : Board} {m : Move} {them occ : Nat} {captured : Option Piece}
    (h : b.pl_pawn m them occ captured = some true) (hp : m.is_promo = true) :
    (if b.stm = .white then rankBB 7 else rankBB 0).testBit m.dst.val = true := by
  obtain ⟨src, dst, flag⟩ := m
  obtain ⟨p, rfl⟩ : ∃ p, flag = .promo p := by
    cases flag <;> simp_all [Move.is_promo, Move.promo_piece]
  simp only [Board.pl_pawn, show Move.is_ep ⟨src, dst, .promo p⟩ = false from rfl,
    Bool.false_eq_true, reduceIte] at h
  split at h
  · exact absurd h (by simp)
  · split at h
    · rename_i hstm
      split at h
      · exact absurd h (by simp)
      · rename_i hcond
        clear h
        simp only [show Move.is_promo ⟨src, dst, .promo p⟩ = true from rfl] at hcond
        simp only [hstm, if_true, ite_true]
        simpa using hcond
    · rename_i hstm
      split at h
      · exact absurd h (by simp)
      · rename_i hcond
        clear h
        simp only [show Move.is_promo ⟨src, dst, .promo p⟩ = true from rfl] at hcond
        simp only [hstm, if_false, ite_false]
        simpa using hcond

set_option maxHeartbeats 1600000 in
theorem pl_pawn_ep {b : Board} {m : Move} {them occ : Nat} {captured : Option Piece}
    (h : b.pl_pawn m them occ captured = some true) (hf : m.flag = .enPassant) :
    b.ep_sq.isSome = true
    ∧ ∃ csq, b.ep_capture_sq m.dst = some csq ∧ them.testBit csq.val = true := by
  obtain ⟨src, dst, flag⟩ := m
  cases hf
  simp only [Board.pl_pawn, show Move.is_ep ⟨src, dst, .enPassant⟩ = true from rfl,
    eq_self_iff_true, reduceIte, if_true] at h
  split at h
  · exact absurd h (by simp)
  · rename_i hepn
    split at h
    · exact absurd h (by simp)
    · rename_i e heq
      split at h
      · exact absurd h (by simp)
      · rename_i hthem
        exact ⟨Option.isSome_iff_ne_none.mpr hepn, e, heq, by simpa using hthem⟩

/-- C4 amended: the promotion check of is_pseudo_legal is one-directional
-- an accepted promotion-flagged move must land on the promotion rank of
the side to move.  (The converse direction of the claim is false: a pawn
move onto the far rank without a promotion flag is accepted, see the
counterexample.) -/
theorem promo_flag_requires_promo_rank (O : Oracles) (b : Board) (m : Move)
    (h : b.is_pseudo_legal O m = some true) (hp : m.is_promo = true) :
    (if b.stm = .white then rankBB 7 else rankBB 0).testBit m.dst.val = true := by
  obtain ⟨pc, hpc, _, _, _, _, _, _, hbr⟩ := pl_accept_cases h
  rcases hbr with ⟨hpw, hpl⟩ | ⟨hnp, hpl⟩
  · exact pl_pawn_promo hpl hp
  · exfalso
    unfold Board.pl_other at hpl
    rw [hp] at hpl
    simp at hpl

theorem promo_flag_requires_promo_rank_witness :
    ∃ b0 : Board, Board.from_fen Z0 "k7/4P3/8/8/8/8/8/K7 w - - 0 1" = some b0
      ∧ (if b0.stm = .white then rankBB 7 else rankBB 0).testBit
          ((⟨52, 60, .promo .queen⟩ : Move).dst.val) = true := by
  refine ⟨(Board.from_fen Z0 "k7/4P3/8/8/8/8/8/K7 w - - 0 1").get (by decide),
    (Option.some_get _).symm, ?_⟩
  exact promo_flag_requires_promo_rank stdOracle _ ⟨52, 60, .promo .queen⟩ (by decide) (by decide)

/-- C9 amended: an accepted en-passant flagged move requires an active
en-passant target and an opponent piece -- not necessarily a pawn, see
the counterexample -- on the implied capture square (one rank behind the
destination for white, ahead for black). -/
theorem ep_requires_target_and_opponent_piece (O : Oracles) (b : Board) (m : Move)
    (h : b.is_pseudo_legal O m = some true) (hf : m.flag = .enPassant) :
    b.ep_sq.isSome = true
    ∧ ∃ csq, b.ep_capture_sq m.dst = some csq ∧ b.them.testBit csq.val = true := by
  obtain ⟨pc, hpc, _, _, _, _, _, _, hbr⟩ := pl_accept_cases h
  rcases hbr with ⟨hpw, hpl⟩ | ⟨hnp, hpl⟩
  · exact pl_pawn_ep hpl hf
  · exfalso
    unfold Board.pl_other at hpl
    have hep : m.is_ep = true := by simp [Move.is_ep, hf]
    rw [hep] at hpl
    simp at hpl

theorem ep_requires_target_and_opponent_piece_witness :
    ∃ b0 : Board,
      Board.from_fen Z0 "rnbqkbnr/ppp1p1pp/8/3pPp2/8/8/PPPP1PPP/RNBQKBNR w KQkq f6 0 3"
        = some b0
      ∧ b0.ep_sq.isSome = true
      ∧ ∃ csq, b0.ep_capture_sq ((⟨36, 45, .enPassant⟩ : Move).dst) = some csq
          ∧ b0.them.testBit csq.val = true := by
  refine ⟨(Board.from_fen Z0
      "rnbqkbnr/ppp1p1pp/8/3pPp2/8/8/PPPP1PPP/RNBQKBNR w KQkq f6 0 3").get (by decide),
    (Option.some_get _).symm, ?_⟩
  exact ep_requires_target_and_opponent_piece stdOracle _ ⟨36, 45, .enPassant⟩ (by decide) rfl

theorem popCountAux_congr {n : Nat} : ∀ {f1 f2 : Nat}, n < f1 → n < f2 →
    popCountAux f1 n = popCountAux f2 n := by
  induction n using Nat.strong_induction_on with
  | _ n ih =>
    intro f1 f2 h1 h2
    match f1, f2 with
    | f1 + 1, f2 + 1 =>
      simp only [popCountAux]
      by_cases hn : n = 0
      · simp [hn]
      · simp only [hn, if_false]
        have hd : n / 2 < n := Nat.div_lt_self (Nat.pos_of_ne_zero hn) (by decide)
        congr 1
        exact ih (n / 2) hd (by omega) (by omega)

theorem popCount_rec (n : Nat) (hn : n ≠ 0) : popCount n = n % 2 + popCount (n / 2) := by
  unfold popCount
  match n, hn with
  | n + 1, _ =>
    simp only [popCountAux, Nat.succ_ne_zero, if_false]
    congr 1
    exact popCountAux_congr (Nat.div_lt_self (Nat.succ_pos n) (by decide))
      (Nat.lt_succ_self _)

theorem popCount_eq_sum (k : Nat) : ∀ n, n < 2 ^ k →
    popCount n = ∑ i ∈ Finset.range k, (if n.testBit i then 1 else 0) := by
  induction k with
  | zero =>
    intro n h
    have hn : n = 0 := by
      simp [Nat.lt_one_iff] at h
      exact h
    subst hn
    simp [popCount, popCountAux]
  | succ k ih =>
    intro n h
    by_cases hn : n = 0
    · subst hn
      simp [popCount, popCountAux, Nat.zero_testBit]
    · have h2 : n / 2 < 2 ^ k := by
        have hp : n < 2 ^ k * 2 := by
          rw [← pow_succ]
          exact h
        omega
      rw [popCount_rec n hn, Finset.sum_range_succ', ih (n / 2) h2]
      have hS : (∑ i ∈ Finset.range k, if (n / 2).testBit i then (1:Nat) else 0)
          = ∑ i ∈ Finset.range k, if n.testBit (i + 1) then 1 else 0 := by
        apply Finset.sum_congr rfl
        intro i _
        rw [Nat.testBit_succ]
      have hf0 : (if n.testBit 0 then (1:Nat) else 0) = n % 2 := by
        rw [Nat.testBit_zero]
        rcases Nat.mod_two_eq_zero_or_one n with h0 | h0 <;> simp [h0]
      rw [hS, hf0]
      omega

theorem popCount_eq_cellCard (x : Nat) (hx : x < 2 ^ 64) :
    popCount x = cellCard (fun sq : Fin 64 => x.testBit sq.val = true) := by
  rw [popCount_eq_sum 64 x hx]
  unfold cellCard
  rw [Finset.card_filter,
    ← Fin.sum_univ_eq_sum_range (fun i => if x.testBit i then (1:Nat) else 0) 64]

theorem cellCard_congr {p q : Fin 64 → Prop} [DecidablePred p] [DecidablePred q]
    (h : ∀ sq, p sq ↔ q sq) : cellCard p = cellCard q := by
  unfold cellCard
  congr 1
  exact Finset.filter_congr fun sq _ => h sq

theorem bb_zero_iff {x : Nat} (hx : x < 2 ^ 64) :
    x = 0 ↔ ∀ sq : Fin 64, x.testBit sq.val = false := by
  constructor
  · rintro rfl sq
    exact Nat.zero_testBit _
  · intro h
    apply Nat.eq_of_testBit_eq
    intro i
    rw [Nat.zero_testBit]
    by_cases hi : i < 64
    · exact h ⟨i, hi⟩
    · exact Nat.testBit_lt_two_pow
        (lt_of_lt_of_le hx (Nat.pow_le_pow_right (by decide) (by omega)))

theorem insufficient_shape (b : Board) :
    b.is_insufficient_material = true ↔
      ((b.bb Piece.pawn.idx ||| b.bb Piece.rook.idx ||| b.bb Piece.queen.idx) = 0
        ∧ (popCount (b.bb Piece.knight.idx ||| b.bb Piece.bishop.idx) ≤ 1
           ∨ (¬ ((b.bb Piece.knight.idx = 0 ∧ b.bb Piece.bishop.idx ≠ 0
                   ∧ popCount (b.bb Piece.bishop.idx &&& b.whiteBB) = 2)
                 ∨ popCount (b.bb Piece.bishop.idx &&& b.blackBB) = 2)
              ∧ popCount (b.bb Piece.knight.idx ||| b.bb Piece.bishop.idx) ≤ 3))) := by
  simp only [Board.is_insufficient_material]
  split_ifs with h1 h2 h3 <;> simp_all

/-- C3 amended: under well-formedness, is_insufficient_material holds
exactly when no pawn, rook or queen remains and either at most one minor
piece remains in total, or at most three remain and neither (knights
absent, bishops present, exactly two white bishops) nor exactly two black
bishops -- the asymmetric condition produced by the source's operator
precedence; and the position 8/1k6/2bb4/8/8/8/6K1/8 w reports sufficient
material. -/
theorem insufficient_material_characterization :
    (∀ b : Board, WF b → (b.is_insufficient_material = true ↔ insufficientAmendedC3 b))
    ∧ ((Board.from_fen Z0 "8/1k6/2bb4/8/8/8/6K1/8 w - - 0 1").map
        (fun b => b.is_insufficient_material)) = some false := by
  refine ⟨?_, by decide⟩
  intro b hw
  obtain ⟨hsq, hbd⟩ := hw
  rw [insufficient_shape]
  have hminors : popCount (b.bb Piece.knight.idx ||| b.bb Piece.bishop.idx)
      = cellCard (fun sq => b.pcs sq = some .knight ∨ b.pcs sq = some .bishop) := by
    rw [popCount_eq_cellCard _ (Nat.or_lt_two_pow (hbd _) (hbd _))]
    apply cellCard_congr
    intro sq
    simp only [Nat.testBit_or, Bool.or_eq_true]
    exact or_congr ((hsq sq).1 .knight) ((hsq sq).1 .bishop)
  have hwb : popCount (b.bb Piece.bishop.idx &&& b.whiteBB)
      = cellCard (fun sq => b.pcs sq = some .bishop
          ∧ (b.bb Side.white.idx).testBit sq.val) := by
    rw [popCount_eq_cellCard _ (lt_of_le_of_lt Nat.and_le_left (hbd _))]
    apply cellCard_congr
    intro sq
    simp only [Nat.testBit_and, Bool.and_eq_true, Board.whiteBB]
    exact and_congr ((hsq sq).1 .bishop) Iff.rfl
  have hblk : popCount (b.bb Piece.bishop.idx &&& b.blackBB)
      = cellCard (fun sq => b.pcs sq = some .bishop
          ∧ (b.bb Side.black.idx).testBit sq.val) := by
    rw [popCount_eq_cellCard _ (lt_of_le_of_lt Nat.and_le_left (hbd _))]
    apply cellCard_congr
    intro sq
    simp only [Nat.testBit_and, Bool.and_eq_true, Board.blackBB]
    exact and_congr ((hsq sq).1 .bishop) Iff.rfl
  have hknight0 : b.bb Piece.knight.idx = 0 ↔ ∀ sq : Fin 64, b.pcs sq ≠ some .knight := by
    rw [bb_zero_iff (hbd _)]
    refine forall_congr' fun sq => ?_
    rw [Bool.eq_false_iff]
    exact not_congr ((hsq sq).1 .knight)
  have hbishopEx : b.bb Piece.bishop.idx ≠ 0 ↔ ∃ sq : Fin 64, b.pcs sq = some .bishop := by
    rw [Ne, bb_zero_iff (hbd _)]
    simp only [not_forall, Bool.not_eq_false]
    exact exists_congr fun sq => (hsq sq).1 .bishop
  have hPRQ : (b.bb Piece.pawn.idx ||| b.bb Piece.rook.idx ||| b.bb Piece.queen.idx) = 0
      ↔ ∀ sq : Fin 64, b.pcs sq ≠ some .pawn ∧ b.pcs sq ≠ some .rook
          ∧ b.pcs sq ≠ some .queen := by
    rw [bb_zero_iff (Nat.or_lt_two_pow (Nat.or_lt_two_pow (hbd _) (hbd _)) (hbd _))]
    refine forall_congr' fun sq => ?_
    simp only [Nat.testBit_or, Bool.or_eq_false_iff]
    rw [and_assoc]
    simp only [Bool.eq_false_iff]
    exact and_congr (not_congr ((hsq sq).1 .pawn))
      (and_congr (not_congr ((hsq sq).1 .rook)) (not_congr ((hsq sq).1 .queen)))
  rw [hminors, hwb, hblk]
  unfold insufficientAmendedC3
  exact and_congr hPRQ (or_congr Iff.rfl (and_comm.trans (and_congr Iff.rfl
    (not_congr (or_congr
      (and_congr hknight0 (and_congr hbishopEx Iff.rfl)) Iff.rfl)))))

theorem insufficient_material_characterization_witness :
    ∃ b0 : Board, Board.from_fen Z0 "8/1k6/2b5/8/8/5B2/6K1/8 w - - 0 1" = some b0
      ∧ (b0.is_insufficient_material = true ↔ insufficientAmendedC3 b0) := by
  refine ⟨(Board.from_fen Z0 "8/1k6/2b5/8/8/5B2/6K1/8 w - - 0 1").get (by decide),
    (Option.some_get _).symm, ?_⟩
  exact insufficient_material_characterization.1 _ (by decide)

theorem xor_left_comm (a b c : Nat) : a ^^^ (b ^^^ c) = b ^^^ (a ^^^ c) := by
  rw [← Nat.xor_assoc, Nat.xor_comm a b, Nat.xor_assoc]

theorem testBit_ofSq (sq : Fin 64) (i : Nat) : (ofSq sq).testBit i = decide (sq.val = i) := by
  unfold ofSq
  rw [Nat.shiftLeft_eq, one_mul, Nat.testBit_two_pow]

theorem ofSq_lt (sq : Fin 64) : ofSq sq < 2 ^ 64 := by
  unfold ofSq
  rw [Nat.shiftLeft_eq, one_mul]
  exact Nat.pow_lt_pow_right (by decide) sq.isLt

theorem toggle_bb_other {Z : Zobrist} {b : Board} {sq : Fin 64} {pc : Piece} {s : Side}
    {i : Nat} (hne : i ≠ sq.val) (k : Fin 8) :
    ((b.toggle_sq Z sq pc s).bb k).testBit i = (b.bb k).testBit i := by
  simp only [Board.toggle_sq]
  split_ifs <;>
    simp [Nat.testBit_xor, testBit_ofSq, fun h => hne (Eq.symm h), Ne.symm hne]

theorem toggle_bb_at {Z : Zobrist} {b : Board} {sq : Fin 64} {pc : Piece} {s : Side}
    (k : Fin 8) :
    ((b.toggle_sq Z sq pc s).bb k).testBit sq.val =
      (if k = pc.idx ∨ k = s.idx then !(b.bb k).testBit sq.val
       else (b.bb k).testBit sq.val) := by
  simp only [Board.toggle_sq]
  split_ifs with h1 h2 <;>
    simp_all [Nat.testBit_xor, testBit_ofSq, Bool.xor_true]

theorem toggle_pcs_other {Z : Zobrist} {b : Board} {sq : Fin 64} {pc : Piece} {s : Side}
    {j : Fin 64} (hne : j ≠ sq) :
    (b.toggle_sq Z sq pc s).pcs j = b.pcs j := by
  simp only [Board.toggle_sq]
  simp [hne]

theorem toggle_side_at_other {Z : Zobrist} {b : Board} {sq : Fin 64} {pc : Piece} {s : Side}
    {j : Fin 64} (hne : j ≠ sq) :
    (b.toggle_sq Z sq pc s).side_at j = b.side_at j := by
  unfold Board.side_at
  rw [toggle_bb_other (fun h => hne (Fin.val_injective h)),
    toggle_bb_other (fun h => hne (Fin.val_injective h))]

theorem toggle_bb_lt {Z : Zobrist} {b : Board} {sq : Fin 64} {pc : Piece} {s : Side}
    (hb : ∀ i : Fin 8, b.bb i < 2 ^ 64) (k : Fin 8) :
    (b.toggle_sq Z sq pc s).bb k < 2 ^ 64 := by
  simp only [Board.toggle_sq]
  split_ifs <;> first
    | exact Nat.xor_lt_two_pow (hb k) (ofSq_lt sq)
    | exact hb k

theorem piece_idx_inj {p q : Piece} (h : p.idx = q.idx) : p = q := by
  cases p <;> cases q <;> first | rfl | simp [Piece.idx] at h

theorem chanKey_congr_cells {Z : Zobrist} {φ : Piece → Side → Prop}
    [∀ pc s, Decidable (φ pc s)] {a c : Board} {j : Fin 64}
    (hp : a.pcs j = c.pcs j) (hs : a.side_at j = c.side_at j) :
    chanKey Z φ a j = chanKey Z φ c j := by
  unfold chanKey
  rw [hp, hs]

theorem chanXor_update {Z : Zobrist} {φ : Piece → Side → Prop}
    [∀ pc s, Decidable (φ pc s)] {a c : Board} {j : Fin 64}
    (hother : ∀ sq, sq ≠ j → chanKey Z φ a sq = chanKey Z φ c sq) :
    chanXor Z φ a = chanXor Z φ c ^^^ chanKey Z φ c j ^^^ chanKey Z φ a j := by
  unfold chanXor
  rw [← Finset.insert_erase (Finset.mem_univ j),
    Finset.fold_insert (Finset.not_mem_erase j Finset.univ),
    Finset.fold_insert (Finset.not_mem_erase j Finset.univ),
    Finset.fold_congr (fun sq hsq => hother sq (Finset.ne_of_mem_erase hsq))]
  generalize chanKey Z φ a j = x
  generalize chanKey Z φ c j = y
  generalize Finset.fold Nat.xor 0 (fun sq => chanKey Z φ c sq) (Finset.univ.erase j) = r
  show x ^^^ r = (y ^^^ r) ^^^ y ^^^ x
  simp [Nat.xor_assoc, Nat.xor_comm, xor_left_comm, Nat.xor_self, Nat.xor_zero,
    Nat.zero_xor, Nat.xor_cancel_left, Nat.xor_cancel_right]

theorem chanXor_congr_cells {Z : Zobrist} {φ : Piece → Side → Prop}
    [∀ pc s, Decidable (φ pc s)] {a c : Board}
    (hp : ∀ j, a.pcs j = c.pcs j) (hs : ∀ j, a.side_at j = c.side_at j) :
    chanXor Z φ a = chanXor Z φ c := by
  unfold chanXor
  exact Finset.fold_congr fun j _ => chanKey_congr_cells (hp j) (hs j)

theorem piece_idx_ne_side_idx (p : Piece) (s : Side) : p.idx ≠ s.idx := by
  cases p <;> cases s <;> decide

theorem side_idx_inj {s t : Side} (h : s.idx = t.idx) : s = t := by
  cases s <;> cases t <;> first | rfl | simp [Side.idx] at h

theorem sideAt_of_bit {b : Board} (hw : ∀ sq, WFsq b sq) {j : Fin 64} {s : Side}
    (h : (b.bb s.idx).testBit j.val = true) : b.side_at j = some s := by
  cases s with
  | white => simp [Board.side_at, h]
  | black =>
    have hwb : (b.bb Side.white.idx).testBit j.val = false := by
      by_contra hc
      exact (hw j).2.1 ⟨by simpa using hc, by simpa using h⟩
    simp [Board.side_at, h, hwb]

theorem bit_of_sideAt {b : Board} {j : Fin 64} {s : Side} (h : b.side_at j = some s) :
    (b.bb s.idx).testBit j.val = true := by
  unfold Board.side_at at h
  by_cases h1 : (b.bb Side.white.idx).testBit j.val = true
  · rw [if_pos h1] at h
    cases h
    exact h1
  · rw [if_neg h1] at h
    by_cases h2 : (b.bb Side.black.idx).testBit j.val = true
    · rw [if_pos h2] at h
      cases h
      exact h2
    · rw [if_neg h2] at h
      cases h

theorem sideAt_none_of_empty {b : Board} (hw : ∀ sq, WFsq b sq) {j : Fin 64}
    (hemp : b.pcs j = none) : b.side_at j = none := by
  have hocc := (hw j).2.2
  rw [hemp] at hocc
  simp only [Option.isSome_none, Bool.false_eq_true, iff_false] at hocc
  push_neg at hocc
  unfold Board.side_at
  simp only [Bool.not_eq_true] at hocc
  simp [hocc.1, hocc.2]

theorem piece_bits_of_pcs {b : Board} (hw : ∀ sq, WFsq b sq) {j : Fin 64} (pc' : Piece) :
    (b.bb pc'.idx).testBit j.val = decide (b.pcs j = some pc') := by
  have h := ((hw j).1 pc')
  by_cases hc : b.pcs j = some pc'
  · simp [hc, h.mpr hc]
  · simp only [hc, decide_False]
    by_contra hb
    exact hc (h.mp (by simpa using hb))

theorem toggle_add {Z : Zobrist} {b : Board} {sq : Fin 64} {pc : Piece} {s : Side}
    (hw : WF b) (hemp : b.pcs sq = none) :
    WF (b.toggle_sq Z sq pc s)
    ∧ (b.toggle_sq Z sq pc s).pcs sq = some pc
    ∧ (b.toggle_sq Z sq pc s).side_at sq = some s
    ∧ (∀ (φ : Piece → Side → Prop) (_inst : ∀ p2 s2, Decidable (φ p2 s2)),
        chanXor Z φ (b.toggle_sq Z sq pc s)
          = chanXor Z φ b ^^^ (if φ pc s then Z.sq pc s sq else 0)) := by
  obtain ⟨hws, hbd⟩ := hw
  have hbits0 : ∀ pc' : Piece, (b.bb pc'.idx).testBit sq.val = false := by
    intro pc'
    rw [piece_bits_of_pcs hws pc', hemp]
    simp
  have hside0 := sideAt_none_of_empty hws hemp
  have hsb0 : ∀ t : Side, (b.bb t.idx).testBit sq.val = false := by
    intro t
    by_contra hc
    rw [sideAt_of_bit hws (by simpa using hc)] at hside0
    cases hside0
  have hpcs : (b.toggle_sq Z sq pc s).pcs sq = some pc := by
    simp [Board.toggle_sq, hemp]
  have hsbit : ∀ t : Side, ((b.toggle_sq Z sq pc s).bb t.idx).testBit sq.val
      = decide (t = s) := by
    intro t
    rw [toggle_bb_at]
    rcases eq_or_ne t s with rfl | hts
    · simp [hsb0 t]
    · have : ¬(t.idx = pc.idx ∨ t.idx = s.idx) := by
        rintro (hh | hh)
        · exact piece_idx_ne_side_idx pc t hh.symm
        · exact hts (side_idx_inj hh)
      simp [this, hsb0 t, hts]
  have hsat : (b.toggle_sq Z sq pc s).side_at sq = some s := by
    cases s with
    | white => simp [Board.side_at, hsbit .white]
    | black =>
      have h1 := hsbit .white
      have h2 := hsbit .black
      simp only [decide_False, decide_True, reduceCtorEq] at h1 h2
      simp [Board.side_at, h1, h2]
  have hwT : WF (b.toggle_sq Z sq pc s) := by
    refine ⟨?_, fun k => toggle_bb_lt hbd k⟩
    intro j
    rcases eq_or_ne j sq with rfl | hne
    · refine ⟨?_, ?_, ?_⟩
      · intro pc'
        rw [hpcs]
        rcases eq_or_ne pc' pc with rfl | hpp
        · rw [toggle_bb_at]
          simp [hbits0 pc']
        · rw [toggle_bb_at]
          have : ¬(pc'.idx = pc.idx ∨ pc'.idx = s.idx) := by
            rintro (hh | hh)
            · exact hpp (piece_idx_inj hh)
            · exact piece_idx_ne_side_idx pc' s hh
          simp [this, hbits0 pc', hpp, Ne.symm hpp]
      · rw [hsbit .white, hsbit .black]
        cases s <;> simp
      · rw [hsbit .white, hsbit .black, hpcs]
        cases s <;> simp
    · have hnv : j.val ≠ sq.val := Fin.val_ne_of_ne hne
      obtain ⟨h1, h2, h3⟩ := hws j
      refine ⟨?_, ?_, ?_⟩
      · intro pc'
        rw [toggle_bb_other hnv, toggle_pcs_other hne]
        exact h1 pc'
      · rw [toggle_bb_other hnv, toggle_bb_other hnv]
        exact h2
      · rw [toggle_bb_other hnv, toggle_bb_other hnv, toggle_pcs_other hne]
        exact h3
  refine ⟨hwT, hpcs, hsat, ?_⟩
  intro φ inst
  rw [chanXor_update (j := sq) (fun j hj =>
    chanKey_congr_cells (toggle_pcs_other hj) (toggle_side_at_other hj))]
  have hkb : chanKey Z φ b sq = 0 := by
    unfold chanKey
    rw [hemp]
  have hkT : chanKey Z φ (b.toggle_sq Z sq pc s) sq
      = (if φ pc s then Z.sq pc s sq else 0) := by
    unfold chanKey
    rw [hpcs, hsat]
  rw [hkb, hkT, Nat.xor_zero]

theorem toggle_remove {Z : Zobrist} {b : Board} {sq : Fin 64} {pc : Piece} {s : Side}
    (hw : WF b) (hpcs : b.pcs sq = some pc) (hside : b.side_at sq = some s) :
    WF (b.toggle_sq Z sq pc s)
    ∧ (b.toggle_sq Z sq pc s).pcs sq = none
    ∧ (b.toggle_sq Z sq pc s).side_at sq = none
    ∧ (∀ (φ : Piece → Side → Prop) (_inst : ∀ p2 s2, Decidable (φ p2 s2)),
        chanXor Z φ (b.toggle_sq Z sq pc s)
          = chanXor Z φ b ^^^ (if φ pc s then Z.sq pc s sq else 0)) := by
  obtain ⟨hws, hbd⟩ := hw
  have hbit : (b.bb pc.idx).testBit sq.val = true := by
    rw [piece_bits_of_pcs hws pc, hpcs]
    simp
  have hbits0 : ∀ pc' : Piece, pc' ≠ pc → (b.bb pc'.idx).testBit sq.val = false := by
    intro pc' hne
    rw [piece_bits_of_pcs hws pc', hpcs]
    simp [Ne.symm hne]
  have hsb : (b.bb s.idx).testBit sq.val = true := bit_of_sideAt hside
  have hsb0 : (b.bb s.flip.idx).testBit sq.val = false := by
    by_contra hc
    have := sideAt_of_bit hws (s := s.flip) (by simpa using hc)
    rw [hside] at this
    cases s <;> simp [Side.flip] at this
  have hpcsT : (b.toggle_sq Z sq pc s).pcs sq = none := by
    simp [Board.toggle_sq, hpcs]
  have hsbit : ∀ t : Side, ((b.toggle_sq Z sq pc s).bb t.idx).testBit sq.val = false := by
    intro t
    rw [toggle_bb_at]
    rcases eq_or_ne t s with rfl | hts
    · simp [hsb]
    · have hni : ¬(t.idx = pc.idx ∨ t.idx = s.idx) := by
        rintro (hh | hh)
        · exact piece_idx_ne_side_idx pc t hh.symm
        · exact hts (side_idx_inj hh)
      have : t = s.flip := by cases s <;> cases t <;> simp_all [Side.flip]
      rw [if_neg hni, this]
      exact hsb0
  have hsat : (b.toggle_sq Z sq pc s).side_at sq = none := by
    have h1 := hsbit .white
    have h2 := hsbit .black
    simp [Board.side_at, h1, h2]
  have hwT : WF (b.toggle_sq Z sq pc s) := by
    refine ⟨?_, fun k => toggle_bb_lt hbd k⟩
    intro j
    rcases eq_or_ne j sq with rfl | hne
    · refine ⟨?_, ?_, ?_⟩
      · intro pc'
        rw [hpcsT, toggle_bb_at]
        rcases eq_or_ne pc' pc with rfl | hpp
        · simp [hbit]
        · have hni : ¬(pc'.idx = pc.idx ∨ pc'.idx = s.idx) := by
            rintro (hh | hh)
            · exact hpp (piece_idx_inj hh)
            · exact piece_idx_ne_side_idx pc' s hh
          simp [hni, hbits0 pc' hpp]
      · rw [hsbit .white, hsbit .black]
        simp
      · rw [hsbit .white, hsbit .black, hpcsT]
        simp
    · have hnv : j.val ≠ sq.val := Fin.val_ne_of_ne hne
      obtain ⟨h1, h2, h3⟩ := hws j
      refine ⟨?_, ?_, ?_⟩
      · intro pc'
        rw [toggle_bb_other hnv, toggle_pcs_other hne]
        exact h1 pc'
      · rw [toggle_bb_other hnv, toggle_bb_other hnv]
        exact h2
      · rw [toggle_bb_other hnv, toggle_bb_other hnv, toggle_pcs_other hne]
        exact h3
  refine ⟨hwT, hpcsT, hsat, ?_⟩
  intro φ inst
  rw [chanXor_update (j := sq) (fun j hj =>
    chanKey_congr_cells (toggle_pcs_other hj) (toggle_side_at_other hj))]
  have hkb : chanKey Z φ b sq = (if φ pc s then Z.sq pc s sq else 0) := by
    unfold chanKey
    rw [hpcs, hside]
  have hkT : chanKey Z φ (b.toggle_sq Z sq pc s) sq = 0 := by
    unfold chanKey
    rw [hpcsT]
  rw [hkb, hkT, Nat.xor_zero]

theorem toggle_hash_fields (Z : Zobrist) (b : Board) (sq : Fin 64) (pc : Piece) (s : Side) :
    (b.toggle_sq Z sq pc s).hash = b.hash ^^^ Z.sq pc s sq
    ∧ (b.toggle_sq Z sq pc s).pawn_hash
        = (if pc = .pawn then b.pawn_hash ^^^ Z.sq pc s sq else b.pawn_hash)
    ∧ (∀ t : Side, (b.toggle_sq Z sq pc s).non_pawn_hashes t
        = (if pc ≠ .pawn ∧ t = s then b.non_pawn_hashes t ^^^ Z.sq pc s sq
           else b.non_pawn_hashes t))
    ∧ (b.toggle_sq Z sq pc s).major_hash
        = (if pc ≠ .pawn ∧ pc.is_major then b.major_hash ^^^ Z.sq pc s sq else b.major_hash)
    ∧ (b.toggle_sq Z sq pc s).minor_hash
        = (if pc ≠ .pawn ∧ pc.is_minor then b.minor_hash ^^^ Z.sq pc s sq else b.minor_hash) := by
  refine ⟨rfl, rfl, ?_, rfl, rfl⟩
  intro t
  simp only [Board.toggle_sq]
  by_cases hp : pc = .pawn
  · simp [hp]
  · by_cases ht : t = s <;> simp [hp, ht]

/-- HashInv is preserved by a coherent toggle: whether the toggle adds a
piece to an empty square or removes the exact occupant, every hash
channel shifts by the key of the toggled cell, in lockstep with its
from-scratch recomputation. -/
theorem hashinv_toggle {Z : Zobrist} {b : Board} {sq : Fin 64} {pc : Piece} {s : Side}
    (hi : HashInv Z b)
    (hcoh : b.pcs sq = none ∨ (b.pcs sq = some pc ∧ b.side_at sq = some s)) :
    HashInv Z (b.toggle_sq Z sq pc s) := by
  obtain ⟨hw, hh, hp, hnp, hmj, hmn⟩ := hi
  have hkey : WF (b.toggle_sq Z sq pc s)
      ∧ (∀ (φ : Piece → Side → Prop) (_inst : ∀ p2 s2, Decidable (φ p2 s2)),
          chanXor Z φ (b.toggle_sq Z sq pc s)
            = chanXor Z φ b ^^^ (if φ pc s then Z.sq pc s sq else 0)) := by
    rcases hcoh with hemp | ⟨hpcs, hside⟩
    · obtain ⟨a, _, _, d⟩ := @toggle_add Z b sq pc s hw hemp
      exact ⟨a, d⟩
    · obtain ⟨a, _, _, d⟩ := toggle_remove (Z := Z) hw hpcs hside
      exact ⟨a, d⟩
  obtain ⟨hwT, hchan⟩ := hkey
  obtain ⟨hfh, hfp, hfnp, hfmj, hfmn⟩ := toggle_hash_fields Z b sq pc s
  refine ⟨hwT, ?_, ?_, ?_, ?_, ?_⟩
  · rw [hfh, hh]
    unfold Zobrist.get_hash
    rw [hchan _ _]
    simp only [if_true, toggle_sq_stm, toggle_sq_castle, toggle_sq_ep_sq]
    simp [Nat.xor_assoc, Nat.xor_comm, xor_left_comm, Nat.xor_self, Nat.xor_zero,
      Nat.zero_xor, Nat.xor_cancel_left, Nat.xor_cancel_right]
  · rw [hfp, hp]
    unfold Zobrist.get_pawn_hash
    rw [hchan _ _]
    by_cases hpw : pc = .pawn <;> simp [hpw]
  · intro t
    rw [hfnp t, hnp t]
    unfold Zobrist.get_non_pawn_hashes
    rw [hchan _ _]
    by_cases hpw : pc = .pawn
    · simp [hpw]
    · by_cases ht : t = s
      · simp [hpw, ht]
      · simp [hpw, ht, Ne.symm ht]
  · rw [hfmj, hmj]
    unfold Zobrist.get_major_hash
    rw [hchan _ _]
    by_cases hpw : pc = .pawn
    · simp [hpw, show Piece.pawn.is_major = false from rfl]
    · by_cases hmaj : pc.is_major = true <;> simp [hpw, hmaj]
  · rw [hfmn, hmn]
    unfold Zobrist.get_minor_hash
    rw [hchan _ _]
    by_cases hpw : pc = .pawn
    · simp [hpw, show Piece.pawn.is_minor = false from rfl]
    · by_cases hmin : pc.is_minor = true <;> simp [hpw, hmin]

theorem wf_of_cells_eq {a c : Board} (hw : WF a) (hp : c.pcs = a.pcs) (hb : c.bb = a.bb) :
    WF c := by
  obtain ⟨h1, h2⟩ := hw
  refine ⟨fun sq => ?_, fun i => ?_⟩
  · unfold WFsq
    rw [hp, hb]
    exact h1 sq
  · rw [hb]
    exact h2 i

theorem sideAt_of_bb_eq {a c : Board} (hb : c.bb = a.bb) :
    ∀ j, c.side_at j = a.side_at j := by
  intro j
  unfold Board.side_at
  rw [hb]

theorem chanXor_of_cells_eq {Z : Zobrist} {φ : Piece → Side → Prop}
    [∀ p2 s2, Decidable (φ p2 s2)] {a c : Board}
    (hp : c.pcs = a.pcs) (hb : c.bb = a.bb) : chanXor Z φ c = chanXor Z φ a :=
  chanXor_congr_cells (fun j => by rw [hp]) (sideAt_of_bb_eq hb)

theorem calc_ep_hash {Z : Zobrist} {flag : MoveFlag} {dst : Fin 64} {b b5 : Board}
    (h : b.calc_ep Z flag dst = some b5) :
    b5.hash = b.hash ^^^ (match b.ep_sq with | some e => Z.ep e | none => 0)
      ^^^ (match b5.ep_sq with | some e => Z.ep e | none => 0) := by
  unfold Board.calc_ep at h
  by_cases hdp : flag = .doublePush
  · simp only [hdp, if_true] at h
    cases hcap : b.ep_capture_sq dst with
    | none => rw [hcap] at h; cases h
    | some e =>
      rw [hcap] at h
      cases h
      cases heq : b.ep_sq with
      | none => simp [heq]
      | some e0 => simp [heq]
  · simp only [hdp, if_false] at h
    cases h
    cases heq : b.ep_sq with
    | none => simp [heq]
    | some e0 => simp [heq]

theorem hashinv_calc_ep {Z : Zobrist} {flag : MoveFlag} {dst : Fin 64} {b b5 : Board}
    (hi : HashInv Z b) (h : b.calc_ep Z flag dst = some b5) : HashInv Z b5 := by
  obtain ⟨hw, hh, hp, hnp, hmj, hmn⟩ := hi
  obtain ⟨hcastle, hstm, hpcs, hbb, hph, hnph, hmjh, hmnh⟩ := calc_ep_preserves h
  have hhash := calc_ep_hash h
  refine ⟨wf_of_cells_eq hw hpcs hbb, ?_, ?_, ?_, ?_, ?_⟩
  · rw [hhash, hh]
    unfold Zobrist.get_hash
    rw [chanXor_of_cells_eq hpcs hbb, hstm, hcastle]
    generalize chanXor Z (fun _ _ => True) b = c
    cases heq : b.ep_sq <;> cases heq5 : b5.ep_sq <;>
      simp [Nat.xor_assoc, Nat.xor_comm, xor_left_comm, Nat.xor_self, Nat.xor_zero,
        Nat.zero_xor, Nat.xor_cancel_left, Nat.xor_cancel_right]
  · rw [hph, hp]
    unfold Zobrist.get_pawn_hash
    rw [chanXor_of_cells_eq hpcs hbb]
  · intro t
    rw [hnph, hnp t]
    unfold Zobrist.get_non_pawn_hashes
    rw [chanXor_of_cells_eq hpcs hbb]
  · rw [hmjh, hmj]
    unfold Zobrist.get_major_hash
    rw [chanXor_of_cells_eq hpcs hbb]
  · rw [hmnh, hmn]
    unfold Zobrist.get_minor_hash
    rw [chanXor_of_cells_eq hpcs hbb]

theorem calc_castle_fields (Z : Zobrist) (src dst : Fin 64) (pc : Piece) (b : Board) :
    (b.calc_castle_rights Z src dst pc).hash
        = b.hash ^^^ Z.castle b.castle ^^^ Z.castle (b.calc_castle_rights Z src dst pc).castle
    ∧ (b.calc_castle_rights Z src dst pc).pcs = b.pcs
    ∧ (b.calc_castle_rights Z src dst pc).bb = b.bb
    ∧ (b.calc_castle_rights Z src dst pc).stm = b.stm
    ∧ (b.calc_castle_rights Z src dst pc).ep_sq = b.ep_sq
    ∧ (b.calc_castle_rights Z src dst pc).pawn_hash = b.pawn_hash
    ∧ (b.calc_castle_rights Z src dst pc).non_pawn_hashes = b.non_pawn_hashes
    ∧ (b.calc_castle_rights Z src dst pc).major_hash = b.major_hash
    ∧ (b.calc_castle_rights Z src dst pc).minor_hash = b.minor_hash := by
  unfold Board.calc_castle_rights
  split
  · refine ⟨?_, rfl, rfl, rfl, rfl, rfl, rfl, rfl, rfl⟩
    rw [Nat.xor_assoc, Nat.xor_self, Nat.xor_zero]
  · exact ⟨rfl, rfl, rfl, rfl, rfl, rfl, rfl, rfl, rfl⟩

theorem hashinv_calc_castle {Z : Zobrist} {src dst : Fin 64} {pc : Piece} {b : Board}
    (hi : HashInv Z b) : HashInv Z (b.calc_castle_rights Z src dst pc) := by
  obtain ⟨hw, hh, hp, hnp, hmj, hmn⟩ := hi
  obtain ⟨hhash, hpcs, hbb, hstm, hep, hph, hnph, hmjh, hmnh⟩ :=
    calc_castle_fields Z src dst pc b
  refine ⟨wf_of_cells_eq hw hpcs hbb, ?_, ?_, ?_, ?_, ?_⟩
  · rw [hhash, hh]
    unfold Zobrist.get_hash
    rw [chanXor_of_cells_eq hpcs hbb, hstm, hep]
    generalize chanXor Z (fun _ _ => True) b = c
    simp [Nat.xor_assoc, Nat.xor_comm, xor_left_comm, Nat.xor_self, Nat.xor_zero,
      Nat.zero_xor, Nat.xor_cancel_left, Nat.xor_cancel_right]
  · rw [hph, hp]
    unfold Zobrist.get_pawn_hash
    rw [chanXor_of_cells_eq hpcs hbb]
  · intro t
    rw [hnph, hnp t]
    unfold Zobrist.get_non_pawn_hashes
    rw [chanXor_of_cells_eq hpcs hbb]
  · rw [hmjh, hmj]
    unfold Zobrist.get_major_hash
    rw [chanXor_of_cells_eq hpcs hbb]
  · rw [hmnh, hmn]
    unfold Zobrist.get_minor_hash
    rw [chanXor_of_cells_eq hpcs hbb]

theorem hashinv_stm_flip {Z : Zobrist} {b b' : Board} (hi : HashInv Z b)
    (hpcs : b'.pcs = b.pcs) (hbb : b'.bb = b.bb)
    (hstm : b'.stm = b.stm.flip) (hcastle : b'.castle = b.castle)
    (hep : b'.ep_sq = b.ep_sq) (hhash : b'.hash = b.hash ^^^ Z.stm)
    (hph : b'.pawn_hash = b.pawn_hash) (hnph : b'.non_pawn_hashes = b.non_pawn_hashes)
    (hmjh : b'.major_hash = b.major_hash) (hmnh : b'.minor_hash = b.minor_hash) :
    HashInv Z b' := by
  obtain ⟨hw, hh, hp, hnp, hmj, hmn⟩ := hi
  refine ⟨wf_of_cells_eq hw hpcs hbb, ?_, ?_, ?_, ?_, ?_⟩
  · rw [hhash, hh]
    unfold Zobrist.get_hash
    rw [chanXor_of_cells_eq hpcs hbb, hstm, hcastle, hep]
    generalize chanXor Z (fun _ _ => True) b = c
    cases b.stm <;> cases heq : b.ep_sq <;>
      simp [Side.flip, Nat.xor_assoc, Nat.xor_comm, xor_left_comm, Nat.xor_self,
        Nat.xor_zero, Nat.zero_xor, Nat.xor_cancel_left, Nat.xor_cancel_right]
  · rw [hph, hp]
    unfold Zobrist.get_pawn_hash
    rw [chanXor_of_cells_eq hpcs hbb]
  · intro t
    rw [hnph, hnp t]
    unfold Zobrist.get_non_pawn_hashes
    rw [chanXor_of_cells_eq hpcs hbb]
  · rw [hmjh, hmj]
    unfold Zobrist.get_major_hash
    rw [chanXor_of_cells_eq hpcs hbb]
  · rw [hmnh, hmn]
    unfold Zobrist.get_minor_hash
    rw [chanXor_of_cells_eq hpcs hbb]

theorem hashinv_flip_clear_ep {Z : Zobrist} {b b' : Board} {e : Fin 64} (hi : HashInv Z b)
    (hpcs : b'.pcs = b.pcs) (hbb : b'.bb = b.bb)
    (hstm : b'.stm = b.stm.flip) (hcastle : b'.castle = b.castle)
    (hepb : b.ep_sq = some e) (hep : b'.ep_sq = none)
    (hhash : b'.hash = b.hash ^^^ Z.stm ^^^ Z.ep e)
    (hph : b'.pawn_hash = b.pawn_hash) (hnph : b'.non_pawn_hashes = b.non_pawn_hashes)
    (hmjh : b'.major_hash = b.major_hash) (hmnh : b'.minor_hash = b.minor_hash) :
    HashInv Z b' := by
  obtain ⟨hw, hh, hp, hnp, hmj, hmn⟩ := hi
  refine ⟨wf_of_cells_eq hw hpcs hbb, ?_, ?_, ?_, ?_, ?_⟩
  · rw [hhash, hh]
    unfold Zobrist.get_hash
    rw [chanXor_of_cells_eq hpcs hbb, hstm, hcastle, hep, hepb]
    generalize chanXor Z (fun _ _ => True) b = c
    cases b.stm <;>
      simp [Side.flip, Nat.xor_assoc, Nat.xor_comm, xor_left_comm, Nat.xor_self,
        Nat.xor_zero, Nat.zero_xor, Nat.xor_cancel_left, Nat.xor_cancel_right]
  · rw [hph, hp]
    unfold Zobrist.get_pawn_hash
    rw [chanXor_of_cells_eq hpcs hbb]
  · intro t
    rw [hnph, hnp t]
    unfold Zobrist.get_non_pawn_hashes
    rw [chanXor_of_cells_eq hpcs hbb]
  · rw [hmjh, hmj]
    unfold Zobrist.get_major_hash
    rw [chanXor_of_cells_eq hpcs hbb]
  · rw [hmnh, hmn]
    unfold Zobrist.get_minor_hash
    rw [chanXor_of_cells_eq hpcs hbb]

theorem hashinv_null {Z : Zobrist} {b : Board} (hi : HashInv Z b) :
    HashInv Z (b.make_null_move Z) := by
  unfold Board.make_null_move
  cases heq : b.ep_sq with
  | some e =>
    exact hashinv_flip_clear_ep hi rfl rfl rfl rfl heq rfl rfl rfl rfl rfl rfl
  | none =>
    exact hashinv_stm_flip hi rfl rfl rfl rfl heq.symm rfl rfl rfl rfl rfl

theorem ep_capture_sq_file {b : Board} {dst csq : Fin 64}
    (h : b.ep_capture_sq dst = some csq) : csq.val % 8 = dst.val % 8 ∧ csq ≠ dst := by
  unfold Board.ep_capture_sq at h
  split at h
  · split at h
    · rename_i hge
      cases h
      refine ⟨show (dst.val - 8) % 8 = dst.val % 8 by omega, ?_⟩
      intro hc
      have h2 : dst.val - 8 = dst.val := congrArg Fin.val hc
      omega
    · cases h
  · split at h
    · rename_i hlt
      cases h
      refine ⟨show (dst.val + 8) % 8 = dst.val % 8 by omega, ?_⟩
      intro hc
      have h2 : dst.val + 8 = dst.val := congrArg Fin.val hc
      omega
    · cases h

theorem pl_pawn_ep_diag {b : Board} {m : Move} {them occ : Nat} {captured : Option Piece}
    (h : b.pl_pawn m them occ captured = some true) (hf : m.flag = .enPassant)
    (hc : captured.isSome = true) : m.src.val % 8 ≠ m.dst.val % 8 := by
  obtain ⟨src, dst, flag⟩ := m
  cases hf
  simp only [Board.pl_pawn, show Move.is_ep ⟨src, dst, .enPassant⟩ = true from rfl,
    reduceIte, if_true] at h
  split at h
  · exact absurd h (by simp)
  · split at h
    · exact absurd h (by simp)
    · split at h
      · exact absurd h (by simp)
      · split at h
        · exact absurd h (by simp)
        · split at h <;>
            (split at h
             · exact absurd h (by simp)
             · split at h
               · rename_i hneq
                 exact hneq
               · exact absurd h (by simp))

theorem sideAt_them_of_occupied {b : Board} (hw : WF b) {j : Fin 64}
    (hocc : (b.pcs j).isSome = true) (hus : (b.bb b.stm.idx).testBit j.val = false) :
    b.side_at j = some b.stm.flip := by
  obtain ⟨hws, _⟩ := hw
  have hor := ((hws j).2.2).mpr (by simp [hocc])
  cases hstm : b.stm with
  | white =>
    rw [hstm] at hus
    have hb : (b.bb Side.black.idx).testBit j.val = true := by
      rcases hor with hwbit | hbbit
      · exact absurd hwbit (by simp [hus])
      · exact hbbit
    exact sideAt_of_bit hws hb
  | black =>
    rw [hstm] at hus
    have hb : (b.bb Side.white.idx).testBit j.val = true := by
      rcases hor with hwbit | hbbit
      · exact hwbit
      · exact absurd hbbit (by simp [hus])
    exact sideAt_of_bit hws hb

theorem pcs_none_of_unocc {b : Board} (hw : WF b) {j : Fin 64}
    (h1 : (b.bb Side.white.idx).testBit j.val = false)
    (h2 : (b.bb Side.black.idx).testBit j.val = false) : b.pcs j = none := by
  obtain ⟨hws, _⟩ := hw
  cases hc : b.pcs j with
  | none => rfl
  | some p =>
    have := ((hws j).2.2).mpr (by simp [hc])
    rcases this with hh | hh <;> simp_all

theorem king_rank0_to6 : ∀ s : Fin 64, (rankBB 0).testBit s.val = true →
    Nat.testBit CastleTravel.WKS s.val = false → (kingAttacks s).testBit 6 = true →
    s = 7 := by decide

theorem king_rank0_to2 : ∀ s : Fin 64, (rankBB 0).testBit s.val = true →
    Nat.testBit CastleTravel.WQS s.val = false → (kingAttacks s).testBit 2 = true →
    False := by decide

theorem king_rank7_to62 : ∀ s : Fin 64, (rankBB 7).testBit s.val = true →
    Nat.testBit CastleTravel.BKS s.val = false → (kingAttacks s).testBit 62 = true →
    s = 63 := by decide

theorem king_rank7_to58 : ∀ s : Fin 64, (rankBB 7).testBit s.val = true →
    Nat.testBit CastleTravel.BQS s.val = false → (kingAttacks s).testBit 58 = true →
    False := by decide

theorem accepted_castle_shape {b : Board} {m : Move} {pc : Piece}
    (hck : b.castle_checks stdOracle m pc (b.us ||| b.them) = true)
    (hatt : (stdOracle.attacks m.src pc b.stm (b.us ||| b.them)).testBit m.dst.val = true)
    (hus : b.us.testBit m.src.val = true) :
    (b.stm = .white ∧ m.src = (7 : Fin 64) ∧ m.dst = (6 : Fin 64)
      ∧ (b.us ||| b.them) &&& CastleTravel.WKS = 0)
    ∨ (b.stm = .black ∧ m.src = (63 : Fin 64) ∧ m.dst = (62 : Fin 64)
      ∧ (b.us ||| b.them) &&& CastleTravel.BKS = 0) := by
  have hsrcbit : (b.us ||| b.them).testBit m.src.val = true := by
    rw [Nat.testBit_or, hus]
    simp
  cases hstm : b.stm with
  | white =>
    simp only [Board.castle_checks, hstm, reduceCtorEq, reduceIte, if_true, if_false] at hck
    split at hck
    · cases hck
    · rename_i hk
      have hpc : pc = .king := not_ne_iff.mp hk
      split at hck
      · cases hck
      · rename_i hrk
        push_neg at hrk
        split at hck
        · cases hck
        · split at hck
          · cases hck
          · split at hck
            · cases hck
            · split at hck
              · rename_i hd6
                split at hck
                · cases hck
                · rename_i ht
                  have htz : (b.us ||| b.them) &&& CastleTravel.WKS = 0 := not_ne_iff.mp ht
                  have hsb : Nat.testBit CastleTravel.WKS m.src.val = false := by
                    have h0 := congrArg (fun t => Nat.testBit t m.src.val) htz
                    simp only [Nat.testBit_and, Nat.zero_testBit] at h0
                    rw [hsrcbit] at h0
                    simpa using h0
                  have hkA : (kingAttacks m.src).testBit 6 = true := by
                    have h' := hatt
                    rw [hpc, hd6] at h'
                    exact h'
                  exact Or.inl ⟨rfl, king_rank0_to6 m.src hrk.1 hsb hkA, hd6, htz⟩
              · rename_i hd6n
                split at hck
                · cases hck
                · rename_i ht
                  have htz : (b.us ||| b.them) &&& CastleTravel.WQS = 0 := not_ne_iff.mp ht
                  have hsb : Nat.testBit CastleTravel.WQS m.src.val = false := by
                    have h0 := congrArg (fun t => Nat.testBit t m.src.val) htz
                    simp only [Nat.testBit_and, Nat.zero_testBit] at h0
                    rw [hsrcbit] at h0
                    simpa using h0
                  rename_i hdp _ _
                  have hd2 : m.dst = (2 : Fin 64) := by
                    by_contra hcc
                    exact hdp ⟨hd6n, hcc⟩
                  have hkA : (kingAttacks m.src).testBit 2 = true := by
                    have h' := hatt
                    rw [hpc, hd2] at h'
                    exact h'
                  exact (king_rank0_to2 m.src hrk.1 hsb hkA).elim
  | black =>
    simp only [Board.castle_checks, hstm, reduceCtorEq, reduceIte, if_true, if_false] at hck
    split at hck
    · cases hck
    · rename_i hk
      have hpc : pc = .king := not_ne_iff.mp hk
      split at hck
      · cases hck
      · rename_i hrk
        push_neg at hrk
        split at hck
        · cases hck
        · split at hck
          · cases hck
          · split at hck
            · cases hck
            · split at hck
              · rename_i hd62
                split at hck
                · cases hck
                · rename_i ht
                  have htz : (b.us ||| b.them) &&& CastleTravel.BKS = 0 := not_ne_iff.mp ht
                  have hsb : Nat.testBit CastleTravel.BKS m.src.val = false := by
                    have h0 := congrArg (fun t => Nat.testBit t m.src.val) htz
                    simp only [Nat.testBit_and, Nat.zero_testBit] at h0
                    rw [hsrcbit] at h0
                    simpa using h0
                  have hkA : (kingAttacks m.src).testBit 62 = true := by
                    have h' := hatt
                    rw [hpc, hd62] at h'
                    exact h'
                  exact Or.inr ⟨rfl, king_rank7_to62 m.src hrk.1 hsb hkA, hd62, htz⟩
              · rename_i hd62n
                split at hck
                · cases hck
                · rename_i ht
                  have htz : (b.us ||| b.them) &&& CastleTravel.BQS = 0 := not_ne_iff.mp ht
                  have hsb : Nat.testBit CastleTravel.BQS m.src.val = false := by
                    have h0 := congrArg (fun t => Nat.testBit t m.src.val) htz
                    simp only [Nat.testBit_and, Nat.zero_testBit] at h0
                    rw [hsrcbit] at h0
                    simpa using h0
                  rename_i hdp _ _
                  have hd58 : m.dst = (58 : Fin 64) := by
                    by_contra hcc
                    exact hdp ⟨hd62n, hcc⟩
                  have hkA : (kingAttacks m.src).testBit 58 = true := by
                    have h' := hatt
                    rw [hpc, hd58] at h'
                    exact h'
                  exact (king_rank7_to58 m.src hrk.1 hsb hkA).elim

theorem castle_flag_flags (m : Move) (h : m.is_castle = true) :
    m.is_ep = false ∧ m.is_promo = false ∧ m.is_double_push = false := by
  obtain ⟨s, d, f⟩ := m
  cases f <;> simp_all [Move.is_castle, Move.is_ep, Move.is_promo, Move.is_double_push,
    Move.promo_piece]

theorem make_tail2 {Z : Zobrist} {flag : MoveFlag} {src dst : Fin 64} {pc : Piece}
    {b4 b5 : Board} {s : Side} {n1 n2 : Nat}
    (hi4 : HashInv Z b4) (hstm4 : b4.stm = s)
    (hb5 : b4.calc_ep Z flag dst = some b5) :
    HashInv Z { b5.calc_castle_rights Z src dst pc with
                fm := n1,
                hm := n2,
                hash := (b5.calc_castle_rights Z src dst pc).hash ^^^ Z.stm,
                stm := s.flip } := by
  have hi6 := @hashinv_calc_castle Z src dst pc b5 (hashinv_calc_ep hi4 hb5)
  have hstm6 : (b5.calc_castle_rights Z src dst pc).stm = s := by
    rw [(calc_castle_fields Z src dst pc b5).2.2.2.1, (calc_ep_preserves hb5).2.1, hstm4]
  exact hashinv_stm_flip hi6 rfl rfl (by rw [hstm6]) rfl rfl rfl rfl rfl rfl rfl

set_option maxHeartbeats 1600000 in
theorem make_preserves_inv {Z : Zobrist} {b b' : Board} {m : Move}
    (hi : HashInv Z b) (hpl : b.is_pseudo_legal stdOracle m = some true)
    (hep : epOk b m) (hmk : b.make Z m = some b') : HashInv Z b' := by
  obtain ⟨pc, hpc, hex, hne, hus, husd, hcapk, hck, hbr⟩ := pl_accept_cases hpl
  have hwb : WF b := hi.1
  have hside_src : b.side_at m.src = some b.stm := sideAt_of_bit hwb.1 hus
  have hnds : m.dst ≠ m.src := fun hh => hne hh.symm
  have hi1 : HashInv Z (b.toggle_sq Z m.src pc b.stm) :=
    hashinv_toggle hi (Or.inr ⟨hpc, hside_src⟩)
  have hsrc1 : (b.toggle_sq Z m.src pc b.stm).pcs m.src = none :=
    (toggle_remove hwb hpc hside_src).2.1
  simp only [Board.make, hpc] at hmk
  split at hmk
  · cases hmk
  · rename_i b2 hb2
    have hmain : HashInv Z b2 ∧ b2.pcs m.dst = none ∧ b2.pcs m.src = none ∧ b2.stm = b.stm
        ∧ (∀ j : Fin 64, j ≠ m.src → j ≠ m.dst → b.pcs j = none → b2.pcs j = none) := by
      by_cases hfep : m.flag = .enPassant
      · obtain ⟨⟨csq0, hcsq0, hpawn0⟩, hdst0⟩ := hep hfep
        have hplp : b.pl_pawn m b.them (b.us ||| b.them) (b.captured m) = some true := by
          rcases hbr with ⟨-, hp2⟩ | ⟨-, hot⟩
          · exact hp2
          · exfalso
            unfold Board.pl_other at hot
            rw [show m.is_ep = true from by simp [Move.is_ep, hfep]] at hot
            simp at hot
        have hcapS : (b.captured m).isSome = true := by
          have hicast : m.is_castle = false := by
            simp [Move.is_castle, hfep]
          simp [Board.captured, Move.is_castle, Move.is_ep, hfep]
        have hfile := pl_pawn_ep_diag hplp hfep hcapS
        obtain ⟨hfcs, hcne⟩ := ep_capture_sq_file hcsq0
        have hcsq_src : csq0 ≠ m.src := by
          intro hh
          exact hfile (by rw [← hh]; exact hfcs)
        have hthem0 : (b.bb b.stm.flip.idx).testBit csq0.val = true := by
          obtain ⟨-, csq1, hcsq1, hth⟩ := pl_pawn_ep hplp hfep
          rw [hcsq0] at hcsq1
          cases hcsq1
          exact hth
        simp only [hfep, reduceIte] at hb2
        rw [ep_capture_sq_congr (toggle_sq_stm Z b m.src pc b.stm) m.dst, hcsq0] at hb2
        cases hb2
        have hp1 : (b.toggle_sq Z m.src pc b.stm).pcs csq0 = some Piece.pawn := by
          rw [toggle_pcs_other hcsq_src]
          exact hpawn0
        have hs1 : (b.toggle_sq Z m.src pc b.stm).side_at csq0 = some b.stm.flip := by
          rw [toggle_side_at_other hcsq_src]
          exact sideAt_of_bit hwb.1 hthem0
        refine ⟨hashinv_toggle hi1 (Or.inr ⟨hp1, hs1⟩), ?_, ?_, rfl, ?_⟩
        · rw [toggle_pcs_other (Ne.symm hcne), toggle_pcs_other hnds]
          exact hdst0
        · rw [toggle_pcs_other (Ne.symm hcsq_src)]
          exact hsrc1
        · intro j hjs hjd hjn
          have hjc : j ≠ csq0 := by
            intro hh
            rw [hh, hpawn0] at hjn
            cases hjn
          rw [toggle_pcs_other hjc, toggle_pcs_other hjs]
          exact hjn
      · simp only [if_neg hfep] at hb2
        cases hdstp : b.pcs m.dst with
        | none =>
          rw [hdstp] at hb2
          cases hb2
          exact ⟨hi1, by rw [toggle_pcs_other hnds]; exact hdstp, hsrc1, rfl,
            fun j hjs hjd hjn => by rw [toggle_pcs_other hjs]; exact hjn⟩
        | some cap =>
          rw [hdstp] at hb2
          cases hb2
          have hp1 : (b.toggle_sq Z m.src pc b.stm).pcs m.dst = some cap := by
            rw [toggle_pcs_other hnds]
            exact hdstp
          have hs1 : (b.toggle_sq Z m.src pc b.stm).side_at m.dst = some b.stm.flip := by
            rw [toggle_side_at_other hnds]
            exact sideAt_them_of_occupied hwb (by simp [hdstp]) husd
          refine ⟨hashinv_toggle hi1 (Or.inr ⟨hp1, hs1⟩),
            (toggle_remove hi1.1 hp1 hs1).2.1, ?_, rfl, ?_⟩
          · rw [toggle_pcs_other hne]
            exact hsrc1
          · intro j hjs hjd hjn
            rw [toggle_pcs_other hjd, toggle_pcs_other hjs]
            exact hjn
    obtain ⟨hi2, h2dst, h2src, h2stm, h2pres⟩ := hmain
    split at hmk
    · cases hmk
    · rename_i b4 hb4
      by_cases hcast : m.is_castle = true
      · have hckT : b.castle_checks stdOracle m pc (b.us ||| b.them) = true := hck hcast
        have hpck : pc ≠ .pawn := by
          intro hpp
          unfold Board.castle_checks at hckT
          rw [hpp] at hckT
          simp at hckT
        have hot : b.pl_other stdOracle m pc (b.us ||| b.them) = some true := by
          rcases hbr with ⟨hpp, -⟩ | ⟨-, h2⟩
          · exact absurd hpp hpck
          · exact h2
        have hflags := castle_flag_flags m hcast
        have hatt : (stdOracle.attacks m.src pc b.stm (b.us ||| b.them)).testBit m.dst.val
            = true := by
          unfold Board.pl_other at hot
          rw [hflags.1, hflags.2.1, hflags.2.2] at hot
          simp at hot
          exact hot
        rcases accepted_castle_shape hckT hatt hus with
          ⟨hstmw, hsrc7, hdst6, htravel⟩ | ⟨hstmb, hsrc63, hdst62, htravel⟩
        · have hrt5 : b.pcs (5 : Fin 64) = none := by
            have h5 : (b.us ||| b.them).testBit 5 = false := by
              have h0 := congrArg (fun t => Nat.testBit t 5) htravel
              simp only [Nat.testBit_and, Nat.zero_testBit] at h0
              rw [show Nat.testBit CastleTravel.WKS 5 = true from by decide] at h0
              simpa using h0
            rw [Nat.testBit_or] at h5
            have hsplit := Bool.or_eq_false_iff.mp h5
            refine pcs_none_of_unocc hwb ?_ ?_
            · have hu := hsplit.1
              unfold Board.us at hu
              rw [hstmw] at hu
              exact hu
            · have ht' := hsplit.2
              unfold Board.them at ht'
              rw [hstmw] at ht'
              exact ht'
          have hi3c : ∀ npc : Piece,
              HashInv Z (b2.toggle_sq Z (6 : Fin 64) npc b.stm) := fun npc => by
            rw [← hdst6]
            exact hashinv_toggle hi2 (Or.inl h2dst)
          have h37 : ∀ npc : Piece,
              (b2.toggle_sq Z (6 : Fin 64) npc b.stm).pcs (7 : Fin 64) = none := fun npc => by
            rw [toggle_pcs_other (by decide : (7 : Fin 64) ≠ (6 : Fin 64)), ← hsrc7]
            exact h2src
          have hiT1 : ∀ npc : Piece, HashInv Z
              ((b2.toggle_sq Z (6 : Fin 64) npc b.stm).toggle_sq Z (7 : Fin 64) .rook b.stm) :=
            fun npc => hashinv_toggle (hi3c npc) (Or.inl (h37 npc))
          have hT1at5 : ∀ npc : Piece,
              (((b2.toggle_sq Z (6 : Fin 64) npc b.stm).toggle_sq Z (7 : Fin 64)
                .rook b.stm)).pcs (5 : Fin 64) = none := fun npc => by
            rw [toggle_pcs_other (by decide : (5 : Fin 64) ≠ (7 : Fin 64)),
              toggle_pcs_other (by decide : (5 : Fin 64) ≠ (6 : Fin 64))]
            refine h2pres 5 ?_ ?_ hrt5
            · rw [hsrc7]
              decide
            · rw [hdst6]
              decide
          have hiT2 : ∀ npc : Piece, HashInv Z
              (((b2.toggle_sq Z (6 : Fin 64) npc b.stm).toggle_sq Z (7 : Fin 64)
                .rook b.stm).toggle_sq Z (5 : Fin 64) .rook b.stm) :=
            fun npc => hashinv_toggle (hiT1 npc) (Or.inl (hT1at5 npc))
          rw [if_pos hcast, hdst6,
            show rook_sqs (6 : Fin 64) = some ((7 : Fin 64), (5 : Fin 64)) from rfl] at hb4
          cases hb4
          split at hmk
          · cases hmk
          · rename_i b5 hb5
            cases hmk
            exact make_tail2 (hiT2 _) h2stm hb5
        · have hrt61 : b.pcs (61 : Fin 64) = none := by
            have h5 : (b.us ||| b.them).testBit 61 = false := by
              have h0 := congrArg (fun t => Nat.testBit t 61) htravel
              simp only [Nat.testBit_and, Nat.zero_testBit] at h0
              rw [show Nat.testBit CastleTravel.BKS 61 = true from by decide] at h0
              simpa using h0
            rw [Nat.testBit_or] at h5
            have hsplit := Bool.or_eq_false_iff.mp h5
            refine pcs_none_of_unocc hwb ?_ ?_
            · have ht' := hsplit.2
              unfold Board.them at ht'
              rw [hstmb] at ht'
              exact ht'
            · have hu := hsplit.1
              unfold Board.us at hu
              rw [hstmb] at hu
              exact hu
          have hi3c : ∀ npc : Piece,
              HashInv Z (b2.toggle_sq Z (62 : Fin 64) npc b.stm) := fun npc => by
            rw [← hdst62]
            exact hashinv_toggle hi2 (Or.inl h2dst)
          have h37 : ∀ npc : Piece,
              (b2.toggle_sq Z (62 : Fin 64) npc b.stm).pcs (63 : Fin 64) = none := fun npc => by
            rw [toggle_pcs_other (by decide : (63 : Fin 64) ≠ (62 : Fin 64)), ← hsrc63]
            exact h2src
          have hiT1 : ∀ npc : Piece, HashInv Z
              ((b2.toggle_sq Z (62 : Fin 64) npc b.stm).toggle_sq Z (63 : Fin 64)
                .rook b.stm) :=
            fun npc => hashinv_toggle (hi3c npc) (Or.inl (h37 npc))
          have hT1at61 : ∀ npc : Piece,
              (((b2.toggle_sq Z (62 : Fin 64) npc b.stm).toggle_sq Z (63 : Fin 64)
                .rook b.stm)).pcs (61 : Fin 64) = none := fun npc => by
            rw [toggle_pcs_other (by decide : (61 : Fin 64) ≠ (63 : Fin 64)),
              toggle_pcs_other (by decide : (61 : Fin 64) ≠ (62 : Fin 64))]
            refine h2pres 61 ?_ ?_ hrt61
            · rw [hsrc63]
              decide
            · rw [hdst62]
              decide
          have hiT2 : ∀ npc : Piece, HashInv Z
              (((b2.toggle_sq Z (62 : Fin 64) npc b.stm).toggle_sq Z (63 : Fin 64)
                .rook b.stm).toggle_sq Z (61 : Fin 64) .rook b.stm) :=
            fun npc => hashinv_toggle (hiT1 npc) (Or.inl (hT1at61 npc))
          rw [if_pos hcast, hdst62,
            show rook_sqs (62 : Fin 64) = some ((63 : Fin 64), (61 : Fin 64)) from rfl] at hb4
          cases hb4
          split at hmk
          · cases hmk
          · rename_i b5 hb5
            cases hmk
            exact make_tail2 (hiT2 _) h2stm hb5
      · rw [if_neg hcast] at hb4
        cases hb4
        split at hmk
        · cases hmk
        · rename_i b5 hb5
          cases hmk
          exact make_tail2 (hashinv_toggle hi2 (Or.inl h2dst)) h2stm hb5

theorem wf_empty : WF Board.empty := by
  refine ⟨fun sq => ⟨fun pc => ?_, ?_, ?_⟩, fun i => ?_⟩
  · simp [Board.empty]
  · simp [Board.empty]
  · simp [Board.empty]
  · show (0 : Nat) < 2 ^ 64
    exact Nat.two_pow_pos 64

theorem processRow_wf {Z : Zobrist} {rank : Fin 8} (cs : List Char) (file : Nat) (b : Board)
    {b2 : Board}
    (hw : WF b)
    (hemp : ∀ f : Nat, file ≤ f → (hf : f < 8) →
      b.pcs ⟨rank.val * 8 + f, by omega⟩ = none)
    (hlow : ∀ sq : Fin 64, sq.val / 8 < rank.val → b.pcs sq = none)
    (h : processRow Z rank cs file b = some b2) :
    WF b2 ∧ ∀ sq : Fin 64, sq.val / 8 < rank.val → b2.pcs sq = none := by
  induction cs generalizing file b with
  | nil =>
    unfold processRow at h
    cases h
    exact ⟨hw, hlow⟩
  | cons c cs ih =>
    unfold processRow at h
    split at h
    · exact ih _ _ hw (fun f hle hf => hemp f (by omega) hf) hlow h
    · split at h
      · rename_i pc side heq
        split at h
        · rename_i hf8
          refine ih _ _ (toggle_add hw (hemp file le_rfl hf8)).1 ?_ ?_ h
          · intro f hle hf
            have hne : (⟨rank.val * 8 + f, by omega⟩ : Fin 64)
                ≠ ⟨rank.val * 8 + file, by omega⟩ := by
              intro hc
              have hv : rank.val * 8 + f = rank.val * 8 + file := congrArg Fin.val hc
              omega
            rw [toggle_pcs_other hne]
            exact hemp f (by omega) hf
          · intro sq hsq
            have hne : sq ≠ (⟨rank.val * 8 + file, by omega⟩ : Fin 64) := by
              intro hc
              have hv : sq.val = rank.val * 8 + file := congrArg Fin.val hc
              rw [hv] at hsq
              omega
            rw [toggle_pcs_other hne]
            exact hlow sq hsq
        · cases h
      · cases h

theorem processRows_wf {Z : Zobrist} (rows : List (List Char)) (i : Nat) (b : Board)
    {b2 : Board}
    (hlen : i + rows.length ≤ 8)
    (hw : WF b)
    (hlow : ∀ sq : Fin 64, sq.val / 8 < 8 - i → b.pcs sq = none)
    (h : processRows Z rows i b = some b2) : WF b2 := by
  induction rows generalizing i b with
  | nil =>
    unfold processRows at h
    cases h
    exact hw
  | cons row rest ih =>
    unfold processRows at h
    split at h
    · rename_i bmid hmid
      have hi7 : i ≤ 7 := by
        simp only [List.length_cons] at hlen
        omega
      have hmod : i % 8 = i := Nat.mod_eq_of_lt (by omega)
      have hrow := processRow_wf row 0 b hw
        (fun f _ hf => hlow _ (by show ((7 - i % 8) * 8 + f) / 8 < 8 - i; rw [hmod]; omega))
        (fun sq hsq => hlow sq (by
          have hv : sq.val / 8 < 7 - i % 8 := hsq
          rw [hmod] at hv
          omega)) hmid
      obtain ⟨hw2, hlow2⟩ := hrow
      refine ih _ _ (by simp only [List.length_cons] at hlen; omega) hw2 ?_ h
      intro sq hsq
      apply hlow2
      show sq.val / 8 < 7 - i % 8
      rw [hmod]
      omega
    · cases h

theorem from_fen_hashinv {Z : Zobrist} {s : String} {bf : Board}
    (h : Board.from_fen Z s = some bf) : HashInv Z bf := by
  simp only [Board.from_fen] at h
  split at h
  · cases h
  · rename_i boardPart hpart
    split at h
    · rename_i hlen8
      split at h
      · cases h
      · rename_i b0v hrows
        have hwr : WF b0v :=
          processRows_wf _ 0 Board.empty (by rw [hlen8]) wf_empty (fun sq _ => rfl) hrows
        split at h
        · cases h
        · split at h
          · cases h
          · split at h
            · cases h
            · split at h
              · cases h
              · split at h
                · cases h
                · split at h
                  · cases h
                  · cases h
                    exact ⟨wf_of_cells_eq hwr rfl rfl, rfl, rfl, fun t => rfl, rfl, rfl⟩
    · cases h

theorem seqok_preserves_inv {Z : Zobrist} {a c : Board} (h : SeqOk Z a c)
    (hi : HashInv Z a) : HashInv Z c := by
  induction h with
  | refl _ => exact hi
  | step b m b1 b2 hpl hepk hmk _ ih => exact ih (make_preserves_inv hi hpl hepk hmk)
  | null b b2 _ ih => exact ih (hashinv_null hi)

/-- C1 (amended): from a successfully decoded position description, after
any finite sequence of make and make_null_move calls whose moves were
accepted by is_pseudo_legal (with the spec-modelled attack collaborators)
and whose en-passant moves really capture an opponent pawn onto an empty
square (the epOk proviso in SeqOk -- without it the channels diverge, see
the counterexample), each of the five hash channels equals its
from-scratch recomputation over the resulting board. -/
theorem hash_channels_eq_scratch_after_seq (Z : Zobrist) (s : String) (b0 b : Board)
    (hdec : Board.from_fen Z s = some b0) (hseq : SeqOk Z b0 b) :
    b.hash = Zobrist.get_hash Z b
    ∧ b.pawn_hash = Zobrist.get_pawn_hash Z b
    ∧ (∀ t : Side, b.non_pawn_hashes t = Zobrist.get_non_pawn_hashes Z b t)
    ∧ b.major_hash = Zobrist.get_major_hash Z b
    ∧ b.minor_hash = Zobrist.get_minor_hash Z b := by
  obtain ⟨-, h1, h2, h3, h4, h5⟩ := seqok_preserves_inv hseq (from_fen_hashinv hdec)
  exact ⟨h1, h2, h3, h4, h5⟩

theorem hash_channels_eq_scratch_after_seq_witness :
    ∃ b0 b1 : Board,
      Board.from_fen Z0 STARTPOS = some b0
      ∧ b0.is_pseudo_legal stdOracle ⟨12, 28, .doublePush⟩ = some true
      ∧ b0.make Z0 ⟨12, 28, .doublePush⟩ = some b1
      ∧ b1.hash = Zobrist.get_hash Z0 b1
      ∧ b1.pawn_hash = Zobrist.get_pawn_hash Z0 b1 := by
  refine ⟨(Board.from_fen Z0 STARTPOS).get (by decide),
    (((Board.from_fen Z0 STARTPOS).get (by decide)).make Z0 ⟨12, 28, .doublePush⟩).get
      (by decide),
    (Option.some_get _).symm, by decide, (Option.some_get _).symm, ?_, ?_⟩
  · exact (hash_channels_eq_scratch_after_seq Z0 STARTPOS _ _ (Option.some_get _).symm
      (SeqOk.step _ ⟨12, 28, .doublePush⟩ _ _ (by decide)
        (fun hx => MoveFlag.noConfusion hx) (Option.some_get _).symm (SeqOk.refl _))).1
  · exact (hash_channels_eq_scratch_after_seq Z0 STARTPOS _ _ (Option.some_get _).symm
      (SeqOk.step _ ⟨12, 28, .doublePush⟩ _ _ (by decide)
        (fun hx => MoveFlag.noConfusion hx) (Option.some_get _).symm (SeqOk.refl _))).2.1

theorem processRow_digit {Z : Zobrist} {rank : Fin 8} (k : Nat) (h1 : 1 ≤ k) (h8 : k ≤ 8)
    (cs : List Char) (file : Nat) (b : Board) :
    processRow Z rank (natToDigits k ++ cs) file b = processRow Z rank cs (file + k) b := by
  interval_cases k <;> rfl

theorem fenPiece_inv : ∀ (pc : Piece) (s : Side),
    fenPieceOfChar (piece_to_char pc s) = some (pc, s) := by decide

theorem piece_char_not_digit : ∀ (pc : Piece) (s : Side),
    ¬('1' ≤ piece_to_char pc s ∧ piece_to_char pc s ≤ '8') := by decide

theorem natToDigitsAux_charset : ∀ (fuel n : Nat), ∀ c ∈ natToDigitsAux fuel n,
    c.isWhitespace = false ∧ c ≠ '/' := by
  intro fuel
  induction fuel with
  | zero => intro n c hc; cases hc
  | succ fuel ih =>
    intro n c hc
    unfold natToDigitsAux at hc
    split at hc
    · rename_i hn
      simp only [List.mem_singleton] at hc
      subst hc
      interval_cases n <;> decide
    · rw [List.mem_append] at hc
      rcases hc with hc | hc
      · exact ih _ c hc
      · simp only [List.mem_singleton] at hc
        subst hc
        have hm : n % 10 < 10 := Nat.mod_lt n (by norm_num)
        set m := n % 10 with hmm
        interval_cases m <;> decide

theorem natToDigits_nonspace (n : Nat) : ∀ c ∈ natToDigits n, c.isWhitespace = false :=
  fun c hc => (natToDigitsAux_charset (n + 1) n c hc).1

theorem natToDigits_ne_nil (n : Nat) : natToDigits n ≠ [] := by
  unfold natToDigits natToDigitsAux
  split
  · simp
  · simp

theorem emitCells_charset : ∀ (cells : List (Option (Piece × Side))) (k : Nat), k ≤ 8 →
    cells.length + k ≤ 8 →
    ∀ c ∈ emitCells cells k, c.isWhitespace = false ∧ c ≠ '/' := by
  intro cells
  induction cells with
  | nil =>
    intro k hk8 _ c hc
    unfold emitCells at hc
    split at hc
    · exact natToDigitsAux_charset (k + 1) k c hc
    · cases hc
  | cons hd rest ih =>
    intro k hk8 hlen c hc
    match hd with
    | none =>
      unfold emitCells at hc
      exact ih (k + 1) (by simp at hlen; omega) (by simp at hlen; omega) c hc
    | some (pc, s) =>
      unfold emitCells at hc
      rw [List.mem_append] at hc
      rcases hc with hc | hc
      · split at hc
        · exact natToDigitsAux_charset (k + 1) k c hc
        · cases hc
      · rw [List.mem_cons] at hc
        rcases hc with hc | hc
        · subst hc
          clear hlen
          revert pc s
          decide
        · exact ih 0 (by omega) (by simp at hlen; omega) c hc

theorem emitCells_ne_nil : ∀ (cells : List (Option (Piece × Side))) (k : Nat),
    1 ≤ cells.length + k → emitCells cells k ≠ [] := by
  intro cells
  induction cells with
  | nil =>
    intro k h1
    have h1' : 0 < k := by simpa using h1
    unfold emitCells
    rw [if_pos h1']
    exact natToDigits_ne_nil k
  | cons hd rest ih =>
    intro k _
    match hd with
    | none =>
      unfold emitCells
      exact ih (k + 1) (by omega)
    | some (pc, s) =>
      unfold emitCells
      simp

theorem parse_castle_emit : ∀ c : Fin 16, parse_castle_rights (emitCastle c.val) 0
    = some c.val := by decide

theorem emitCastle_nonspace : ∀ c : Fin 16, ∀ ch ∈ emitCastle c.val,
    ch.isWhitespace = false := by decide

theorem emitCastle_ne_nil : ∀ c : Fin 16, emitCastle c.val ≠ [] := by decide

theorem parse_ep_emit_some : ∀ e : Fin 64, parse_ep_sq (emitEp (some e)) = some (some e) := by
  decide

theorem emitEp_nonspace : ∀ (e : Option (Fin 64)), ∀ ch ∈ emitEp e,
    ch.isWhitespace = false := by
  intro e
  match e with
  | none => decide
  | some e2 => revert e2; decide

theorem emitEp_ne_nil : ∀ (e : Option (Fin 64)), emitEp e ≠ [] := by
  intro e
  match e with
  | none => decide
  | some e2 => simp [emitEp]

set_option maxRecDepth 4000 in
theorem parseClock_emit : ∀ n : Fin 256, parseClock (natToDigits n.val) = n.val := by decide

theorem cellAt_none_inv {p : Board} {j : Fin 64} (h : p.cellAt j = some none) :
    p.pcs j = none := by
  unfold Board.cellAt Board.piece_at at h
  cases hp : p.pcs j with
  | none => rfl
  | some pc =>
    rw [hp] at h
    cases hs : p.side_at j with
    | none => rw [hs] at h; cases h
    | some s2 => rw [hs] at h; cases h

theorem cellAt_some_inv {p : Board} {j : Fin 64} {pc : Piece} {s : Side}
    (h : p.cellAt j = some (some (pc, s))) :
    p.pcs j = some pc ∧ p.side_at j = some s := by
  unfold Board.cellAt Board.piece_at at h
  cases hp : p.pcs j with
  | none => rw [hp] at h; cases h
  | some pc2 =>
    rw [hp] at h
    cases hs : p.side_at j with
    | none => rw [hs] at h; cases h
    | some s2 =>
      rw [hs] at h
      cases h
      exact ⟨rfl, rfl⟩

theorem cellAt_isSome {p : Board} (hwp : WF p) (j : Fin 64) :
    ∃ c, p.cellAt j = some c := by
  unfold Board.cellAt Board.piece_at
  cases hp : p.pcs j with
  | none => exact ⟨none, rfl⟩
  | some pc =>
    have hor := ((hwp.1 j).2.2).mpr (by simp [hp])
    have hside : ∃ s, p.side_at j = some s := by
      unfold Board.side_at
      rcases hor with hb | hb
      · exact ⟨.white, by simp [hb]⟩
      · by_cases hw2 : (p.bb Side.white.idx).testBit j.val = true
        · exact ⟨.white, by simp [hw2]⟩
        · exact ⟨.black, by simp [hw2, hb]⟩
    obtain ⟨s, hs⟩ := hside
    exact ⟨some (pc, s), by rw [hs]⟩

theorem splitWsAux_word (w : List Char) (hns : ∀ c ∈ w, c.isWhitespace = false) :
    ∀ (rest acc : List Char), splitWsAux (w ++ rest) acc = splitWsAux rest (w.reverse ++ acc) := by
  induction w with
  | nil => intro rest acc; simp
  | cons c w ih =>
    intro rest acc
    have hc : c.isWhitespace = false := hns c (by simp)
    simp only [List.reverse_cons, List.append_assoc, List.singleton_append, List.cons_append]
    simp only [splitWsAux]
    rw [hc]
    simp only [Bool.false_eq_true, if_false]
    exact ih (fun c2 h2 => hns c2 (by simp [h2])) rest (c :: acc)

theorem splitWsAux_space (rest acc : List Char) :
    splitWsAux (' ' :: rest) acc
      = if acc = [] then splitWsAux rest [] else acc.reverse :: splitWsAux rest [] := rfl

theorem splitWs_word_space (w rest : List Char) (hns : ∀ c ∈ w, c.isWhitespace = false)
    (hne : w ≠ []) :
    splitWsAux (w ++ ' ' :: rest) [] = w :: splitWsAux rest [] := by
  rw [splitWsAux_word w hns (' ' :: rest) [], List.append_nil, splitWsAux_space,
    if_neg (by simpa using hne), List.reverse_reverse]

theorem splitWsAux_final (w : List Char) (hns : ∀ c ∈ w, c.isWhitespace = false)
    (hne : w ≠ []) : splitWsAux w [] = [w] := by
  have h0 := splitWsAux_word w hns [] []
  rw [List.append_nil] at h0
  rw [h0]
  unfold splitWsAux
  rw [List.append_nil, if_neg (by simpa using hne), List.reverse_reverse]

theorem splitSlash_no (w : List Char) (h : '/' ∉ w) : splitSlash w = [w] := by
  induction w with
  | nil => rfl
  | cons c w ih =>
    have hc : ¬ c = '/' := fun hh => h (by simp [hh])
    simp only [splitSlash]
    rw [if_neg hc, ih (fun hm => h (by simp [hm]))]

theorem splitSlash_app (a t : List Char) (h : '/' ∉ a) :
    splitSlash (a ++ '/' :: t) = a :: splitSlash t := by
  induction a with
  | nil =>
    show splitSlash ('/' :: t) = [] :: splitSlash t
    simp only [splitSlash]
    simp
  | cons c a ih =>
    have hc : ¬ c = '/' := fun hh => h (by simp [hh])
    show splitSlash (c :: (a ++ '/' :: t)) = _
    simp only [splitSlash]
    rw [if_neg hc, ih (fun hm => h (by simp [hm]))]

set_option maxHeartbeats 1600000 in
theorem processRow_emit {Z : Zobrist} {rank : Fin 8} {p : Board} (hwp : WF p) :
    ∀ (cells : List (Option (Piece × Side))) (k file : Nat) (b : Board),
      WF b →
      ∀ (hlen : file + k + cells.length = 8),
      (∀ f, file ≤ f → (hf : f < 8) → b.pcs ⟨rank.val * 8 + f, by omega⟩ = none) →
      (∀ f, file ≤ f → f < file + k → (hf : f < 8) →
        p.cellAt ⟨rank.val * 8 + f, by omega⟩ = some none) →
      (∀ i (hi : i < cells.length),
        p.cellAt ⟨rank.val * 8 + (file + k + i), by omega⟩ = some (cells.get ⟨i, hi⟩)) →
      ∃ b2, processRow Z rank (emitCells cells k) file b = some b2
        ∧ WF b2
        ∧ (∀ j : Fin 64, ¬(j.val / 8 = rank.val ∧ file ≤ j.val % 8) →
            b2.pcs j = b.pcs j ∧ b2.side_at j = b.side_at j)
        ∧ (∀ f, (hf : f < 8) → file ≤ f →
            b2.pcs ⟨rank.val * 8 + f, by omega⟩ = p.pcs ⟨rank.val * 8 + f, by omega⟩
            ∧ b2.side_at ⟨rank.val * 8 + f, by omega⟩
              = p.side_at ⟨rank.val * 8 + f, by omega⟩) := by
  intro cells
  induction cells with
  | nil =>
    intro k file b hw hlen hemp hpend _
    simp only [List.length_nil] at hlen
    refine ⟨b, ?_, hw, fun j _ => ⟨rfl, rfl⟩, ?_⟩
    · unfold emitCells
      by_cases hk : 0 < k
      · rw [if_pos hk, ← List.append_nil (natToDigits k), processRow_digit k hk (by omega)]
        rfl
      · rw [if_neg hk]
        rfl
    · intro f hf hle
      have hfk : f < file + k := by omega
      have hpn : p.pcs ⟨rank.val * 8 + f, by omega⟩ = none :=
        cellAt_none_inv (hpend f hle hfk hf)
      have hbn : b.pcs ⟨rank.val * 8 + f, by omega⟩ = none := hemp f hle hf
      exact ⟨by rw [hbn, hpn],
        by rw [sideAt_none_of_empty hw.1 hbn, sideAt_none_of_empty hwp.1 hpn]⟩
  | cons hd rest ih =>
    intro k file b hw hlen hemp hpend hcells
    simp only [List.length_cons] at hlen
    match hd with
    | none =>
      have hlen' : file + (k + 1) + rest.length = 8 := by omega
      have hpend' : ∀ f, file ≤ f → f < file + (k + 1) → (hf : f < 8) →
          p.cellAt ⟨rank.val * 8 + f, by omega⟩ = some none := by
        intro f hle hlt hf
        by_cases hfk : f < file + k
        · exact hpend f hle hfk hf
        · have hfe : f = file + k + 0 := by omega
          have h0 := hcells 0 (by simp)
          rw [show ((none :: rest).get ⟨0, by simp⟩ : Option (Piece × Side)) = none
            from rfl] at h0
          have hff : (⟨rank.val * 8 + f, by omega⟩ : Fin 64)
              = ⟨rank.val * 8 + (file + k + 0), by omega⟩ := by
            apply Fin.ext
            simp only []
            omega
          rw [hff]
          exact h0
      have hcells' : ∀ i (hi : i < rest.length),
          p.cellAt ⟨rank.val * 8 + (file + (k + 1) + i), by omega⟩
            = some (rest.get ⟨i, hi⟩) := by
        intro i hi
        have h0 := hcells (i + 1) (by simp; omega)
        rw [show ((none :: rest).get ⟨i + 1, by simp; omega⟩ : Option (Piece × Side))
          = rest.get ⟨i, hi⟩ from rfl] at h0
        have hff : (⟨rank.val * 8 + (file + (k + 1) + i), by omega⟩ : Fin 64)
            = ⟨rank.val * 8 + (file + k + (i + 1)), by omega⟩ := by
          apply Fin.ext
          simp only []
          omega
        rw [hff]
        exact h0
      obtain ⟨b2, hrun, hw2, hpres, hmatch⟩ := ih (k + 1) file b hw hlen' hemp hpend' hcells'
      exact ⟨b2, by simp only [emitCells]; exact hrun, hw2, hpres, hmatch⟩
    | some (pc, s) =>
      have hr8 : rank.val < 8 := rank.isLt
      have hfk8 : file + k < 8 := by omega
      have hred : processRow Z rank (emitCells (some (pc, s) :: rest) k) file b
          = processRow Z rank (piece_to_char pc s :: emitCells rest 0) (file + k) b := by
        simp only [emitCells]
        by_cases hk : 0 < k
        · rw [if_pos hk]
          exact processRow_digit k hk (by omega) _ _ _
        · rw [if_neg hk]
          have hk0 : k = 0 := by omega
          subst hk0
          rfl
      have hsq : b.pcs ⟨rank.val * 8 + (file + k), by omega⟩ = none :=
        hemp (file + k) (by omega) hfk8
      obtain ⟨hw1, hp1, hs1, -⟩ :=
        @toggle_add Z b ⟨rank.val * 8 + (file + k), by omega⟩ pc s hw hsq
      have hemp1 : ∀ f, file + k + 1 ≤ f → (hf : f < 8) →
          (b.toggle_sq Z ⟨rank.val * 8 + (file + k), by omega⟩ pc s).pcs
            ⟨rank.val * 8 + f, by omega⟩ = none := by
        intro f hle hf
        rw [toggle_pcs_other (by
          intro hc
          have hv : rank.val * 8 + f = rank.val * 8 + (file + k) := congrArg Fin.val hc
          omega)]
        exact hemp f (by omega) hf
      have hcells1 : ∀ i (hi : i < rest.length),
          p.cellAt ⟨rank.val * 8 + (file + k + 1 + 0 + i), by omega⟩
            = some (rest.get ⟨i, hi⟩) := by
        intro i hi
        have h0 := hcells (i + 1) (by simp; omega)
        rw [show ((some (pc, s) :: rest).get ⟨i + 1, by simp; omega⟩ : Option (Piece × Side))
          = rest.get ⟨i, hi⟩ from rfl] at h0
        have hff : (⟨rank.val * 8 + (file + k + 1 + 0 + i), by omega⟩ : Fin 64)
            = ⟨rank.val * 8 + (file + k + (i + 1)), by omega⟩ := by
          apply Fin.ext
          simp only []
          omega
        rw [hff]
        exact h0
      obtain ⟨b2, hrun, hw2, hpres, hmatch⟩ :=
        ih 0 (file + k + 1) (b.toggle_sq Z ⟨rank.val * 8 + (file + k), by omega⟩ pc s) hw1
          (by omega) hemp1 (fun f hle hlt hf => absurd hlt (by omega)) hcells1
      have hcell0 := hcells 0 (by simp)
      rw [show ((some (pc, s) :: rest).get ⟨0, by simp⟩ : Option (Piece × Side))
        = some (pc, s) from rfl] at hcell0
      obtain ⟨hppc, hpside⟩ := cellAt_some_inv (by
        have hff : (⟨rank.val * 8 + (file + k + 0), by omega⟩ : Fin 64)
            = ⟨rank.val * 8 + (file + k), by omega⟩ := by
          apply Fin.ext
          simp only []
          omega
        rw [hff] at hcell0
        exact hcell0)
      refine ⟨b2, ?_, hw2, ?_, ?_⟩
      · rw [hred]
        simp only [processRow]
        rw [if_neg (piece_char_not_digit pc s), fenPiece_inv]
        show (if h : file + k < 8 then
            processRow Z rank (emitCells rest 0) (file + k + 1)
              (b.toggle_sq Z ⟨rank.val * 8 + (file + k), by omega⟩ pc s)
          else none) = some b2
        rw [dif_pos hfk8]
        exact hrun
      · intro j hj
        have hjne : j ≠ ⟨rank.val * 8 + (file + k), by omega⟩ := by
          intro hc
          apply hj
          rw [hc]
          constructor
          · show (rank.val * 8 + (file + k)) / 8 = rank.val
            omega
          · show file ≤ (rank.val * 8 + (file + k)) % 8
            omega
        have hj1 : ¬(j.val / 8 = rank.val ∧ file + k + 1 ≤ j.val % 8) := by
          intro ⟨ha, hb2⟩
          exact hj ⟨ha, by omega⟩
        obtain ⟨hq1, hq2⟩ := hpres j hj1
        exact ⟨hq1.trans (toggle_pcs_other hjne),
          hq2.trans (toggle_side_at_other hjne)⟩
      · intro f hf hle
        by_cases hfc : file + k + 1 ≤ f
        · exact hmatch f hf hfc
        · by_cases hfe : f = file + k
          · subst hfe
            have hj1 : ¬((rank.val * 8 + (file + k)) / 8 = rank.val
                ∧ file + k + 1 ≤ (rank.val * 8 + (file + k)) % 8) := by
              intro ⟨ha, hb2⟩
              omega
            obtain ⟨hq1, hq2⟩ := hpres ⟨rank.val * 8 + (file + k), by omega⟩ hj1
            exact ⟨by rw [hq1, hp1, hppc], by rw [hq2, hs1, hpside]⟩
          · have hflt : f < file + k := by omega
            have hj1 : ¬((rank.val * 8 + f) / 8 = rank.val
                ∧ file + k + 1 ≤ (rank.val * 8 + f) % 8) := by
              intro ⟨ha, hb2⟩
              omega
            obtain ⟨hq1, hq2⟩ := hpres ⟨rank.val * 8 + f, by omega⟩ hj1
            have hjne : (⟨rank.val * 8 + f, by omega⟩ : Fin 64)
                ≠ ⟨rank.val * 8 + (file + k), by omega⟩ := by
              intro hc
              have hv : rank.val * 8 + f = rank.val * 8 + (file + k) := congrArg Fin.val hc
              omega
            have hbn : b.pcs ⟨rank.val * 8 + f, by omega⟩ = none := hemp f hle hf
            have hpn : p.pcs ⟨rank.val * 8 + f, by omega⟩ = none :=
              cellAt_none_inv (hpend f hle hflt hf)
            have hb2n : b2.pcs ⟨rank.val * 8 + f, by omega⟩ = none := by
              rw [hq1, toggle_pcs_other hjne]
              exact hbn
            exact ⟨by rw [hb2n, hpn],
              by rw [sideAt_none_of_empty hw2.1 hb2n, sideAt_none_of_empty hwp.1 hpn]⟩

theorem collectCells_spec {p : Board} {r : Fin 8} :
    ∀ (fs : List (Fin 8)) {cs : List (Option (Piece × Side))},
      collectCells p r fs = some cs →
      ∃ hlen : cs.length = fs.length,
        ∀ n (hn : n < fs.length),
          p.cellAt ⟨r.val * 8 + (fs.get ⟨n, hn⟩).val, by omega⟩
            = some (cs.get ⟨n, by rw [hlen]; exact hn⟩) := by
  intro fs
  induction fs with
  | nil =>
    intro cs h
    unfold collectCells at h
    cases h
    exact ⟨rfl, fun n hn => absurd hn (by simp)⟩
  | cons f fs ih =>
    intro cs h
    unfold collectCells at h
    split at h
    · rename_i c cs' hcell hcol
      cases h
      obtain ⟨hlen, hspec⟩ := ih hcol
      refine ⟨by simp [hlen], ?_⟩
      intro n hn
      match n with
      | 0 => exact hcell
      | n + 1 => exact hspec n (by simpa using hn)
    · cases h

set_option maxHeartbeats 1600000 in
theorem processRows_emit {Z : Zobrist} {p : Board} (hwp : WF p) :
    ∀ (rks : List (Fin 8)) (rows : List (List Char)) (i : Nat) (b : Board),
      WF b →
      ∀ (hi8 : i + rks.length = 8) (hlenr : rows.length = rks.length),
      (∀ n (hn : n < rks.length), (rks.get ⟨n, hn⟩).val = 7 - (i + n)) →
      (∀ n (hn : n < rks.length), ∃ cs,
          collectCells p (rks.get ⟨n, hn⟩) (List.finRange 8) = some cs
          ∧ rows.get ⟨n, by rw [hlenr]; exact hn⟩ = emitCells cs 0) →
      (∀ sq : Fin 64, sq.val / 8 < 8 - i → b.pcs sq = none) →
      (∀ sq : Fin 64, 8 - i ≤ sq.val / 8 →
          b.pcs sq = p.pcs sq ∧ b.side_at sq = p.side_at sq) →
      ∀ {b2}, processRows Z rows i b = some b2 →
        WF b2 ∧ ∀ sq : Fin 64, b2.pcs sq = p.pcs sq ∧ b2.side_at sq = p.side_at sq := by
  intro rks
  induction rks with
  | nil =>
    intro rows i b hw hi8 hlenr _ _ hpend hdone b2 h
    have hre : rows = [] := List.eq_nil_of_length_eq_zero (by rw [hlenr]; rfl)
    subst hre
    unfold processRows at h
    cases h
    refine ⟨hw, fun sq => hdone sq ?_⟩
    simp only [List.length_nil] at hi8
    omega
  | cons r rks ih =>
    intro rows i b hw hi8 hlenr hrk hrows hpend hdone b2 h
    simp only [List.length_cons] at hi8
    cases rows with
    | nil => simp at hlenr
    | cons row rows' =>
      unfold processRows at h
      split at h
      · rename_i bmid hmid
        have hi7 : i ≤ 7 := by omega
        have hr7i : r.val = 7 - i := by
          have h0 := hrk 0 (by simp)
          rw [show ((r :: rks).get ⟨0, by simp⟩) = r from rfl] at h0
          omega
        have hreq : (⟨7 - i % 8, by omega⟩ : Fin 8) = r := by
          apply Fin.ext
          show 7 - i % 8 = r.val
          rw [Nat.mod_eq_of_lt (by omega), hr7i]
        rw [hreq] at hmid
        obtain ⟨cs, hcol, hrow0⟩ := hrows 0 (by simp)
        rw [show ((r :: rks).get ⟨0, by simp⟩) = r from rfl] at hcol
        rw [show ((row :: rows').get ⟨0, by simp⟩) = row from rfl] at hrow0
        subst hrow0
        obtain ⟨hlcs, hcspec⟩ := collectCells_spec (List.finRange 8) hcol
        have hlcs8 : cs.length = 8 := by
          rw [hlcs]
          simp
        have hr8 : r.val < 8 := r.isLt
        obtain ⟨b2x, hrun, hw2, hpres, hmatch⟩ := processRow_emit hwp cs 0 0 b hw
          (by omega)
          (fun f _ hf => hpend _ (by
            show (r.val * 8 + f) / 8 < 8 - i
            omega))
          (fun f _ hlt _ => absurd hlt (by omega))
          (by
            intro i2 hi2
            have hi28 : i2 < 8 := by omega
            have hsp := hcspec i2 (by simpa using hi28)
            rw [show ((List.finRange 8).get ⟨i2, by simpa using hi28⟩)
              = ⟨i2, hi28⟩ from by simp] at hsp
            have hff : (⟨r.val * 8 + (0 + 0 + i2), by omega⟩ : Fin 64)
                = ⟨r.val * 8 + i2, by omega⟩ := by
              apply Fin.ext
              show r.val * 8 + (0 + 0 + i2) = r.val * 8 + i2
              omega
            rw [hff]
            exact hsp)
        have hbm : bmid = b2x := by
          rw [hmid] at hrun
          exact Option.some_injective _ hrun
        subst hbm
        refine ih rows' (i + 1) bmid hw2 (by omega) (by simpa using hlenr) ?_ ?_ ?_ ?_ h
        · intro n hn
          have h0 := hrk (n + 1) (by simp only [List.length_cons]; omega)
          rw [show 7 - (i + 1 + n) = 7 - (i + (n + 1)) from by omega]
          exact h0
        · intro n hn
          obtain ⟨cs2, hcol2, hrow2⟩ := hrows (n + 1) (by simp only [List.length_cons]; omega)
          exact ⟨cs2, hcol2, hrow2⟩
        · intro sq hsq
          have hnr : ¬(sq.val / 8 = r.val ∧ 0 ≤ sq.val % 8) := by
            rintro ⟨ha, -⟩
            omega
          rw [(hpres sq hnr).1]
          exact hpend sq (by omega)
        · intro sq hsq
          by_cases hcur : sq.val / 8 = r.val
          · have hsq8 : sq.val % 8 < 8 := Nat.mod_lt _ (by norm_num)
            have hff : sq = ⟨r.val * 8 + sq.val % 8, by omega⟩ := by
              apply Fin.ext
              show sq.val = r.val * 8 + sq.val % 8
              omega
            rw [hff]
            exact hmatch (sq.val % 8) hsq8 (by omega)
          · have hnr : ¬(sq.val / 8 = r.val ∧ 0 ≤ sq.val % 8) := by
              rintro ⟨ha, -⟩
              exact hcur ha
            obtain ⟨hq1, hq2⟩ := hpres sq hnr
            have hd' := hdone sq (by omega)
            exact ⟨hq1.trans hd'.1, hq2.trans hd'.2⟩
      · cases h

theorem collectCells_total {p : Board} (hwp : WF p) (r : Fin 8) :
    ∀ fs : List (Fin 8), ∃ cs, collectCells p r fs = some cs := by
  intro fs
  induction fs with
  | nil => exact ⟨[], rfl⟩
  | cons f fs ih =>
    obtain ⟨cs, hcs⟩ := ih
    obtain ⟨c, hcell⟩ := cellAt_isSome hwp ⟨r.val * 8 + f.val, by omega⟩
    refine ⟨c :: cs, ?_⟩
    unfold collectCells
    rw [hcell, hcs]

theorem cellAt_congr {a p : Board} (j : Fin 64) (h1 : a.pcs j = p.pcs j)
    (h2 : a.side_at j = p.side_at j) : a.cellAt j = p.cellAt j := by
  unfold Board.cellAt Board.piece_at
  rw [h1, h2]

theorem collectCells_congr {a p : Board}
    (h : ∀ j : Fin 64, a.pcs j = p.pcs j ∧ a.side_at j = p.side_at j) (r : Fin 8) :
    ∀ fs : List (Fin 8), collectCells a r fs = collectCells p r fs := by
  intro fs
  induction fs with
  | nil => rfl
  | cons f fs ih =>
    unfold collectCells
    rw [ih, cellAt_congr _ (h _).1 (h _).2]

theorem emitRanks_congr {a p : Board}
    (h : ∀ j : Fin 64, a.pcs j = p.pcs j ∧ a.side_at j = p.side_at j) :
    ∀ rs : List (Fin 8), emitRanks a rs = emitRanks p rs := by
  intro rs
  induction rs with
  | nil => rfl
  | cons r rest ih =>
    cases rest with
    | nil =>
      show (collectCells a r (List.finRange 8)).map _ = (collectCells p r _).map _
      rw [collectCells_congr h]
    | cons r2 rest2 =>
      show (match collectCells a r (List.finRange 8), emitRanks a (r2 :: rest2) with
        | some cs, some tl => some (emitCells cs 0 ++ '/' :: tl)
        | _, _ => none) = _
      rw [collectCells_congr h, ih]
      rfl

theorem emitRanks_spec {p : Board} (hwp : WF p) :
    ∀ (rs : List (Fin 8)), rs ≠ [] →
      ∃ (chars : List Char) (rows : List (List Char)), emitRanks p rs = some chars
        ∧ splitSlash chars = rows
        ∧ ∃ hlr : rows.length = rs.length,
          (∀ n (hn : n < rs.length), ∃ cs,
            collectCells p (rs.get ⟨n, hn⟩) (List.finRange 8) = some cs
            ∧ rows.get ⟨n, by rw [hlr]; exact hn⟩ = emitCells cs 0)
          ∧ (∀ c ∈ chars, c.isWhitespace = false)
          ∧ chars ≠ [] := by
  intro rs
  induction rs with
  | nil => intro hne; exact absurd rfl hne
  | cons r rest ih =>
    intro _
    obtain ⟨cs, hcs⟩ := collectCells_total hwp r (List.finRange 8)
    obtain ⟨hlcs, -⟩ := collectCells_spec (List.finRange 8) hcs
    have hlcs8 : cs.length = 8 := by simpa using hlcs
    have hrowset := emitCells_charset cs 0 (by omega) (by omega)
    have hrowne : emitCells cs 0 ≠ [] := emitCells_ne_nil cs 0 (by omega)
    have hnosl : '/' ∉ emitCells cs 0 := fun hm => (hrowset _ hm).2 rfl
    cases rest with
    | nil =>
      refine ⟨emitCells cs 0, [emitCells cs 0], ?_, splitSlash_no _ hnosl, by simp, ?_, ?_, hrowne⟩
      · show (collectCells p r (List.finRange 8)).map (fun cs => emitCells cs 0) = _
        rw [hcs]
        rfl
      · intro n hn
        match n, hn with
        | 0, _ => exact ⟨cs, hcs, rfl⟩
      · intro c hcm
        exact (hrowset c hcm).1
    | cons r2 rest2 =>
      obtain ⟨tl, rows', htl, hsp, hlr', hspec', hset', hne'⟩ := ih (by simp)
      refine ⟨emitCells cs 0 ++ '/' :: tl, emitCells cs 0 :: rows', ?_, ?_, by simp [hlr'], ?_, ?_, by simp⟩
      · show (match collectCells p r (List.finRange 8), emitRanks p (r2 :: rest2) with
          | some cs, some tl => some (emitCells cs 0 ++ '/' :: tl)
          | _, _ => none) = _
        rw [hcs, htl]
      · rw [splitSlash_app _ _ hnosl, hsp]
      · intro n hn
        match n with
        | 0 => exact ⟨cs, hcs, rfl⟩
        | n + 1 =>
          obtain ⟨cs2, h1, h2⟩ := hspec' n (by simpa using hn)
          exact ⟨cs2, h1, h2⟩
      · intro c hcm
        rw [List.mem_append] at hcm
        rcases hcm with hcm | hcm
        · exact (hrowset c hcm).1
        · rw [List.mem_cons] at hcm
          rcases hcm with hcm | hcm
          · subst hcm
            rfl
          · exact hset' c hcm

set_option maxHeartbeats 1600000 in
theorem processRows_total {Z : Zobrist} {p : Board} (hwp : WF p) :
    ∀ (rks : List (Fin 8)) (rows : List (List Char)) (i : Nat) (b : Board),
      WF b →
      ∀ (hi8 : i + rks.length = 8) (hlenr : rows.length = rks.length),
      (∀ n (hn : n < rks.length), (rks.get ⟨n, hn⟩).val = 7 - (i + n)) →
      (∀ n (hn : n < rks.length), ∃ cs,
          collectCells p (rks.get ⟨n, hn⟩) (List.finRange 8) = some cs
          ∧ rows.get ⟨n, by rw [hlenr]; exact hn⟩ = emitCells cs 0) →
      (∀ sq : Fin 64, sq.val / 8 < 8 - i → b.pcs sq = none) →
      (∀ sq : Fin 64, 8 - i ≤ sq.val / 8 →
          b.pcs sq = p.pcs sq ∧ b.side_at sq = p.side_at sq) →
      ∃ b2, processRows Z rows i b = some b2 := by
  intro rks
  induction rks with
  | nil =>
    intro rows i b hw hi8 hlenr _ _ hpend hdone
    have hre : rows = [] := List.eq_nil_of_length_eq_zero (by rw [hlenr]; rfl)
    subst hre
    exact ⟨b, rfl⟩
  | cons r rks ih =>
    intro rows i b hw hi8 hlenr hrk hrows hpend hdone
    simp only [List.length_cons] at hi8
    cases rows with
    | nil => simp at hlenr
    | cons row rows' =>
      have hi7 : i ≤ 7 := by omega
      have hr7i : r.val = 7 - i := by
        have h0 := hrk 0 (by simp)
        rw [show ((r :: rks).get ⟨0, by simp⟩) = r from rfl] at h0
        omega
      have hreq : (⟨7 - i % 8, by omega⟩ : Fin 8) = r := by
        apply Fin.ext
        show 7 - i % 8 = r.val
        rw [Nat.mod_eq_of_lt (by omega), hr7i]
      obtain ⟨cs, hcol, hrow0⟩ := hrows 0 (by simp)
      rw [show ((r :: rks).get ⟨0, by simp⟩) = r from rfl] at hcol
      rw [show ((row :: rows').get ⟨0, by simp⟩) = row from rfl] at hrow0
      subst hrow0
      obtain ⟨hlcs, hcspec⟩ := collectCells_spec (List.finRange 8) hcol
      have hlcs8 : cs.length = 8 := by
        rw [hlcs]
        simp
      have hr8 : r.val < 8 := r.isLt
      obtain ⟨b2x, hrun, hw2, hpres, hmatch⟩ := processRow_emit hwp cs 0 0 b hw
        (by omega)
        (fun f _ hf => hpend _ (by
          show (r.val * 8 + f) / 8 < 8 - i
          omega))
        (fun f _ hlt _ => absurd hlt (by omega))
        (by
          intro i2 hi2
          have hi28 : i2 < 8 := by omega
          have hsp := hcspec i2 (by simpa using hi28)
          rw [show ((List.finRange 8).get ⟨i2, by simpa using hi28⟩)
            = ⟨i2, hi28⟩ from by simp] at hsp
          have hff : (⟨r.val * 8 + (0 + 0 + i2), by omega⟩ : Fin 64)
              = ⟨r.val * 8 + i2, by omega⟩ := by
            apply Fin.ext
            show r.val * 8 + (0 + 0 + i2) = r.val * 8 + i2
            omega
          rw [hff]
          exact hsp)
      obtain ⟨bf, hbf⟩ := ih rows' (i + 1) b2x hw2 (by omega) (by simpa using hlenr)
        (by
          intro n hn
          have h0 := hrk (n + 1) (by simp only [List.length_cons]; omega)
          rw [show 7 - (i + 1 + n) = 7 - (i + (n + 1)) from by omega]
          exact h0)
        (by
          intro n hn
          obtain ⟨cs2, hcol2, hrow2⟩ := hrows (n + 1) (by simp only [List.length_cons]; omega)
          exact ⟨cs2, hcol2, hrow2⟩)
        (by
          intro sq hsq
          have hnr : ¬(sq.val / 8 = r.val ∧ 0 ≤ sq.val % 8) := by
            rintro ⟨ha, -⟩
            omega
          rw [(hpres sq hnr).1]
          exact hpend sq (by omega))
        (by
          intro sq hsq
          by_cases hcur : sq.val / 8 = r.val
          · have hsq8 : sq.val % 8 < 8 := Nat.mod_lt _ (by norm_num)
            have hff : sq = ⟨r.val * 8 + sq.val % 8, by omega⟩ := by
              apply Fin.ext
              show sq.val = r.val * 8 + sq.val % 8
              omega
            rw [hff]
            exact hmatch (sq.val % 8) hsq8 (by omega)
          · have hnr : ¬(sq.val / 8 = r.val ∧ 0 ≤ sq.val % 8) := by
              rintro ⟨ha, -⟩
              exact hcur ha
            obtain ⟨hq1, hq2⟩ := hpres sq hnr
            have hd' := hdone sq (by omega)
            exact ⟨hq1.trans hd'.1, hq2.trans hd'.2⟩)
      refine ⟨bf, ?_⟩
      unfold processRows
      rw [hreq, hrun]
      exact hbf

theorem list6_get (a b c d e f : List Char) :
    ([a, b, c, d, e, f] : List (List Char)).get? 0 = some a
    ∧ ([a, b, c, d, e, f] : List (List Char)).get? 1 = some b
    ∧ ([a, b, c, d, e, f] : List (List Char)).get? 2 = some c
    ∧ ([a, b, c, d, e, f] : List (List Char)).get? 3 = some d
    ∧ ([a, b, c, d, e, f] : List (List Char)).get? 4 = some e
    ∧ ([a, b, c, d, e, f] : List (List Char)).get? 5 = some f :=
  ⟨rfl, rfl, rfl, rfl, rfl, rfl⟩

set_option maxHeartbeats 3200000 in
/-- C8: encoding a well-formed position (coherent redundant state, rights
mask below 16, clocks in the u8 range of the Rust fields), decoding the
resulting description and re-encoding yields the identical string, with
rights emitted in the fixed order K, Q, k, q and a dash for an empty
rights field or absent en-passant target. -/
theorem fen_round_trip (Z : Zobrist) (p : Board) (hw : WF p) (hc : p.castle < 16)
    (hhm : p.hm < 256) (hfm : p.fm < 256) :
    ∃ s1 q, p.to_fen = some s1 ∧ Board.from_fen Z s1 = some q ∧ q.to_fen = some s1 := by
  obtain ⟨B, rows, hemitB, hsplitB, hlr, hspecB, hsetB, hneB⟩ :=
    emitRanks_spec hw (List.finRange 8).reverse (by decide)
  have hlr8 : rows.length = 8 := by simpa using hlr
  have hrk : ∀ n (hn : n < ((List.finRange 8).reverse).length),
      (((List.finRange 8).reverse).get ⟨n, hn⟩).val = 7 - (0 + n) := by
    intro n hn
    have hn8 : n < 8 := by simpa using hn
    interval_cases n <;> rfl
  have hSTMns : ∀ c ∈ (if p.stm = Side.white then ['w'] else ['b']),
      c.isWhitespace = false := by
    intro c hcm
    cases hstm0 : p.stm <;> rw [hstm0] at hcm <;> simp at hcm <;> subst hcm <;> decide
  have hSTMne : (if p.stm = Side.white then ['w'] else ['b']) ≠ [] := by
    cases hstm0 : p.stm <;> simp
  have hCASns : ∀ c ∈ emitCastle p.castle, c.isWhitespace = false :=
    emitCastle_nonspace ⟨p.castle, hc⟩
  have hCASne : emitCastle p.castle ≠ [] := emitCastle_ne_nil ⟨p.castle, hc⟩
  have hEPns : ∀ c ∈ emitEp p.ep_sq, c.isWhitespace = false := emitEp_nonspace p.ep_sq
  have hEPne : emitEp p.ep_sq ≠ [] := emitEp_ne_nil p.ep_sq
  have hsplitWs : splitWs (B ++ ' ' :: (if p.stm = Side.white then ['w'] else ['b'])
      ++ ' ' :: emitCastle p.castle ++ ' ' :: emitEp p.ep_sq
      ++ ' ' :: natToDigits p.hm ++ ' ' :: natToDigits p.fm)
      = [B, (if p.stm = Side.white then ['w'] else ['b']), emitCastle p.castle,
         emitEp p.ep_sq, natToDigits p.hm, natToDigits p.fm] := by
    unfold splitWs
    simp only [List.cons_append, List.append_assoc]
    rw [splitWs_word_space _ _ hsetB hneB,
      splitWs_word_space _ _ hSTMns hSTMne,
      splitWs_word_space _ _ hCASns hCASne,
      splitWs_word_space _ _ hEPns hEPne,
      splitWs_word_space _ _ (natToDigits_nonspace p.hm) (natToDigits_ne_nil p.hm),
      splitWsAux_final _ (natToDigits_nonspace p.fm) (natToDigits_ne_nil p.fm)]
  have hPstm : parse_stm (if p.stm = Side.white then ['w'] else ['b']) = some p.stm := by
    cases p.stm <;> rfl
  have hPcas : parse_castle_rights (emitCastle p.castle) 0 = some p.castle :=
    parse_castle_emit ⟨p.castle, hc⟩
  have hPep : parse_ep_sq (emitEp p.ep_sq) = some p.ep_sq := by
    cases p.ep_sq with
    | none => rfl
    | some e => exact parse_ep_emit_some e
  have hPhm : parseClock (natToDigits p.hm) = p.hm := parseClock_emit ⟨p.hm, hhm⟩
  have hPfm : parseClock (natToDigits p.fm) = p.fm := parseClock_emit ⟨p.fm, hfm⟩
  obtain ⟨q0, hq0⟩ := processRows_total (Z := Z) hw (List.finRange 8).reverse rows 0 Board.empty
    wf_empty (by simp) hlr hrk hspecB (fun sq _ => rfl)
    (fun sq hsq => absurd hsq (by have := sq.isLt; omega))
  obtain ⟨hwq0, hcellq0⟩ := processRows_emit (Z := Z) hw (List.finRange 8).reverse rows 0 Board.empty
    wf_empty (by simp) hlr hrk hspecB (fun sq _ => rfl)
    (fun sq hsq => absurd hsq (by have := sq.isLt; omega)) hq0
  have hTOFENp : p.to_fen = some (String.mk (B
      ++ ' ' :: (if p.stm = Side.white then ['w'] else ['b'])
      ++ ' ' :: emitCastle p.castle ++ ' ' :: emitEp p.ep_sq
      ++ ' ' :: natToDigits p.hm ++ ' ' :: natToDigits p.fm)) := by
    unfold Board.to_fen
    rw [hemitB]
  cases hFF0 : Board.from_fen Z (String.mk (B
      ++ ' ' :: (if p.stm = Side.white then ['w'] else ['b'])
      ++ ' ' :: emitCastle p.castle ++ ' ' :: emitEp p.ep_sq
      ++ ' ' :: natToDigits p.hm ++ ' ' :: natToDigits p.fm)) with
  | none =>
    exfalso
    simp only [Board.from_fen, String.toList, hsplitWs, List.get?, Option.getD_some,
      hsplitB, hlr8, reduceIte, hq0, hPstm, hPcas, hPep, hPhm, hPfm,
      reduceCtorEq] at hFF0
  | some q =>
    have hFF1 := hFF0
    simp only [Board.from_fen, String.toList, hsplitWs, List.get?, Option.getD_some,
      hsplitB, hlr8, reduceIte, hq0, hPstm, hPcas, hPep, hPhm, hPfm,
      Option.some.injEq] at hFF0
    have hqp : ∀ j : Fin 64, q.pcs j = p.pcs j ∧ q.side_at j = p.side_at j := by
      intro j
      constructor
      · rw [← hFF0]
        exact (hcellq0 j).1
      · rw [← hFF0]
        exact (hcellq0 j).2
    have hqs : q.stm = p.stm := by rw [← hFF0]
    have hqc : q.castle = p.castle := by rw [← hFF0]
    have hqe : q.ep_sq = p.ep_sq := by rw [← hFF0]
    have hqh : q.hm = p.hm := by rw [← hFF0]
    have hqf : q.fm = p.fm := by rw [← hFF0]
    refine ⟨_, _, hTOFENp, hFF1, ?_⟩
    unfold Board.to_fen
    rw [emitRanks_congr hqp (List.finRange 8).reverse, hemitB, hqs, hqc, hqe, hqh, hqf]

set_option maxRecDepth 4000 in
theorem fen_round_trip_witness :
    ∃ p : Board, Board.from_fen Z0 STARTPOS = some p
      ∧ WF p ∧ p.castle < 16 ∧ p.hm < 256 ∧ p.fm < 256
      ∧ ∃ s1 q, p.to_fen = some s1 ∧ Board.from_fen Z0 s1 = some q
          ∧ q.to_fen = some s1 := by
  refine ⟨(Board.from_fen Z0 STARTPOS).get (by decide), (Option.some_get _).symm,
    by decide, by decide, by decide, by decide, ?_⟩
  exact fen_round_trip Z0 ((Board.from_fen Z0 STARTPOS).get (by decide))
    (by decide) (by decide) (by decide) (by decide)
